import Mathlib

/-!
Verification of the intrusive doubly-linked list (namespace dod, header
intrusive_list.hpp).

The C++ code works on raw pointers.  We shallowly embed it as operations on
an explicit heap: addresses are natural numbers, a pointer is an
Option Nat (none models nullptr), and the heap is a total function from
addresses to list_node records.  Every operation below is translated
statement by statement from the source; places where the C++ would
dereference a null pointer (undefined behavior) are modelled as leaving the
heap unchanged, and such states are excluded by the preconditions of the
theorems.
-/

set_option maxHeartbeats 1000000

namespace dod

/-- Mirror of the C++ class list_node: the two raw pointers next_ and
prev_, each possibly null. -/
structure list_node where
  next_ : Option Nat
  prev_ : Option Nat
deriving DecidableEq, Repr

/-- The heap: every address holds a list_node record. -/
def Heap : Type := Nat → list_node

/-- Write the next_ field at address a. -/
def setNext (h : Heap) (a : Nat) (v : Option Nat) : Heap :=
  fun x => if x = a then { h x with next_ := v } else h x

/-- Write the prev_ field at address a. -/
def setPrev (h : Heap) (a : Nat) (v : Option Nat) : Heap :=
  fun x => if x = a then { h x with prev_ := v } else h x

/-- Overwrite both fields at address a. -/
def setNode (h : Heap) (a : Nat) (nd : list_node) : Heap :=
  fun x => if x = a then nd else h x

/-- Store through a possibly-null pointer into the next_ field: models a
C++ write p->next_ = v guarded by the caller; dereferencing nullptr is
undefined behavior in the source and modelled as a no-op. -/
def storeNext (h : Heap) (p : Option Nat) (v : Option Nat) : Heap :=
  match p with
  | some a => setNext h a v
  | none => h

/-- Store through a possibly-null pointer into the prev_ field. -/
def storePrev (h : Heap) (p : Option Nat) (v : Option Nat) : Heap :=
  match p with
  | some a => setPrev h a v
  | none => h

@[simp] theorem setNext_next (h : Heap) (a : Nat) (v : Option Nat) (x : Nat) :
    ((setNext h a v) x).next_ = if x = a then v else (h x).next_ := by
  by_cases hx : x = a <;> simp [setNext, hx]

@[simp] theorem setNext_prev (h : Heap) (a : Nat) (v : Option Nat) (x : Nat) :
    ((setNext h a v) x).prev_ = (h x).prev_ := by
  by_cases hx : x = a <;> simp [setNext, hx]

@[simp] theorem setPrev_prev (h : Heap) (a : Nat) (v : Option Nat) (x : Nat) :
    ((setPrev h a v) x).prev_ = if x = a then v else (h x).prev_ := by
  by_cases hx : x = a <;> simp [setPrev, hx]

@[simp] theorem setPrev_next (h : Heap) (a : Nat) (v : Option Nat) (x : Nat) :
    ((setPrev h a v) x).next_ = (h x).next_ := by
  by_cases hx : x = a <;> simp [setPrev, hx]

@[simp] theorem setNode_apply (h : Heap) (a : Nat) (nd : list_node) (x : Nat) :
    (setNode h a nd) x = if x = a then nd else h x := rfl

/-- list_node::is_linked: next_ != nullptr or prev_ != nullptr. -/
def is_linked (nd : list_node) : Bool := nd.next_.isSome || nd.prev_.isSome

/-- list_node::unlink: if linked, patch the two neighbors (reading the own
fields live, exactly as the C++ statements do) and clear both own
references; otherwise do nothing. -/
def unlink (h : Heap) (a : Nat) : Heap :=
  if is_linked (h a) then
    let h1 := storePrev h (h a).next_ (h a).prev_
    let h2 := storeNext h1 (h1 a).prev_ (h1 a).next_
    setNode h2 a ⟨none, none⟩
  else h

/-- list_node move constructor: the destination is freshly constructed
(both fields default to nullptr); if the source is linked, take over its
position, repoint both neighbors at the destination and clear the
source. -/
def list_node_move (h : Heap) (dst src : Nat) : Heap :=
  let h0 := setNode h dst ⟨none, none⟩
  if is_linked (h0 src) then
    let h1 := setNode h0 dst ⟨(h0 src).next_, (h0 src).prev_⟩
    let h2 := storePrev h1 (h1 dst).next_ (some dst)
    let h3 := storeNext h2 (h2 dst).prev_ (some dst)
    setNode h3 src ⟨none, none⟩
  else h0

/-- list_node move assignment: no-op on self-assignment; otherwise first
unlink the destination from any current list, then take over the source
position exactly as the move constructor does. -/
def list_node_move_assign (h : Heap) (dst src : Nat) : Heap :=
  if dst = src then h
  else
    let h0 := unlink h dst
    if is_linked (h0 src) then
      let h1 := setNode h0 dst ⟨(h0 src).next_, (h0 src).prev_⟩
      let h2 := storePrev h1 (h1 dst).next_ (some dst)
      let h3 := storeNext h2 (h2 dst).prev_ (some dst)
      setNode h3 src ⟨none, none⟩
    else h0

/-! ### The intrusive_list operations, translated from the source.
A list is identified by the address s of its sentinel node. -/

/-- intrusive_list constructor: sentinel_.next_ and sentinel_.prev_ both
point at the sentinel itself. -/
def intrusive_list_init (h : Heap) (s : Nat) : Heap :=
  setNode h s ⟨some s, some s⟩

/-- intrusive_list::empty: sentinel_.next_ == addr of sentinel_. -/
def empty (h : Heap) (s : Nat) : Bool := decide ((h s).next_ = some s)

/-- intrusive_list::begin: iterator holding sentinel_.next_. -/
def begin (h : Heap) (s : Nat) : Option Nat := (h s).next_

/-- intrusive_list::end: iterator holding the address of the sentinel. -/
def end_ (s : Nat) : Option Nat := some s

/-- Iterator pre-increment: current_ = current_->next_.  The C++ asserts
current_ != nullptr first; advancing a null iterator is undefined behavior
and modelled as staying null. -/
def iterInc (h : Heap) (it : Option Nat) : Option Nat :=
  match it with
  | some a => (h a).next_
  | none => none

/-- Iterator pre-decrement: current_ = current_->prev_. -/
def iterDec (h : Heap) (it : Option Nat) : Option Nat :=
  match it with
  | some a => (h a).prev_
  | none => none

/-- intrusive_list::push_front: splice the node between the sentinel and
the current head, following the four source statements in order. -/
def push_front (h : Heap) (s : Nat) (a : Nat) : Heap :=
  let h1 := setNode h a ⟨(h s).next_, some s⟩
  let h2 := storePrev h1 (h1 s).next_ (some a)
  setNext h2 s (some a)

/-- intrusive_list::push_back: splice the node between the current tail
and the sentinel. -/
def push_back (h : Heap) (s : Nat) (a : Nat) : Heap :=
  let h1 := setNode h a ⟨some s, (h s).prev_⟩
  let h2 := storeNext h1 (h1 s).prev_ (some a)
  setPrev h2 s (some a)

/-- intrusive_list::pop_front: sentinel_.next_->unlink().  The sentinel
next pointer is never null for a constructed list; a null there would be
undefined behavior and is modelled as a no-op. -/
def pop_front (h : Heap) (s : Nat) : Heap :=
  match (h s).next_ with
  | some x => unlink h x
  | none => h

/-- intrusive_list::pop_back: sentinel_.prev_->unlink(). -/
def pop_back (h : Heap) (s : Nat) : Heap :=
  match (h s).prev_ with
  | some x => unlink h x
  | none => h

/-- intrusive_list::insert(pos, obj): splice the node immediately before
the position, reading pos_node->prev_ live as the source does.  A null
iterator would be dereferenced by the C++ (undefined behavior); modelled
as a no-op. -/
def insert (h : Heap) (pos : Option Nat) (a : Nat) : Heap :=
  match pos with
  | some p =>
    let h1 := setNode h a ⟨some p, (h p).prev_⟩
    let h2 := storeNext h1 (h1 p).prev_ (some a)
    setPrev h2 p (some a)
  | none => h

/-- intrusive_list::erase(pos): unlink the node at the position.  The
returned iterator is modelled separately by erase_at_ret. -/
def erase_at (h : Heap) (pos : Option Nat) : Heap :=
  match pos with
  | some p => unlink h p
  | none => h

/-- Return value of intrusive_list::erase(pos): iterator to the node that
followed the erased one, read before unlinking. -/
def erase_at_ret (h : Heap) (pos : Option Nat) : Option Nat :=
  match pos with
  | some p => (h p).next_
  | none => none

/-- intrusive_list::erase(T&): unlink the object node directly, without
any assertion. -/
def erase_obj (h : Heap) (a : Nat) : Heap := unlink h a

/-- intrusive_list::clear: pop_front until empty.  The C++ while-loop is
modelled with an explicit fuel bound; any fuel at least the length of the
list reaches the empty state. -/
def clear (s : Nat) : Nat → Heap → Heap
  | 0, h => h
  | fuel + 1, h => if empty h s then h else clear s fuel (pop_front h s)

/-- intrusive_list::swap: no-op on self-swap and when both lists are
empty; otherwise the three source branches, each translated statement by
statement with live reads. -/
def swap (h : Heap) (sa sb : Nat) : Heap :=
  if sa = sb then h
  else
    let this_empty := empty h sa
    let other_empty := empty h sb
    if this_empty && other_empty then h
    else if this_empty then
      let h1 := setNode h sa ⟨(h sb).next_, (h sb).prev_⟩
      let h2 := storePrev h1 (h1 sa).next_ (some sa)
      let h3 := storeNext h2 (h2 sa).prev_ (some sa)
      setNode h3 sb ⟨some sb, some sb⟩
    else if other_empty then
      let h1 := setNode h sb ⟨(h sa).next_, (h sa).prev_⟩
      let h2 := storePrev h1 (h1 sb).next_ (some sb)
      let h3 := storeNext h2 (h2 sb).prev_ (some sb)
      setNode h3 sa ⟨some sa, some sa⟩
    else
      let h1 := setNext (setNext h sa ((h sb).next_)) sb ((h sa).next_)
      let h2 := setPrev (setPrev h1 sa ((h1 sb).prev_)) sb ((h1 sa).prev_)
      let h3 := storePrev h2 (h2 sa).next_ (some sa)
      let h4 := storeNext h3 (h3 sa).prev_ (some sa)
      let h5 := storePrev h4 (h4 sb).next_ (some sb)
      storeNext h5 (h5 sb).prev_ (some sb)

/-- intrusive_list move constructor: default-construct (empty) then swap
with the source. -/
def intrusive_list_move (h : Heap) (dst src : Nat) : Heap :=
  swap (intrusive_list_init h dst) dst src

/-- intrusive_list move assignment: no-op on self-assignment; otherwise
clear the destination then swap with the source. -/
def intrusive_list_move_assign (h : Heap) (dst src : Nat) (fuel : Nat) : Heap :=
  if dst = src then h else swap (clear dst fuel h) dst src

/-- intrusive_list::can_insert: the object node is not linked. -/
def can_insert (h : Heap) (a : Nat) : Bool := !(is_linked (h a))

/-! ### Assertion conditions of the debug build.  Each predicate is true
exactly when the corresponding C++ assert passes. -/

/-- Condition of assert(!node.is_linked()) in push_front, push_back and
insert. -/
def push_assert (h : Heap) (a : Nat) : Bool := !(is_linked (h a))

/-- Condition of assert(!empty()) in front, back, pop_front and
pop_back. -/
def access_assert (h : Heap) (s : Nat) : Bool := !(empty h s)

/-- Condition of assert(current_ != nullptr) in the iterator dereference,
arrow, increment and decrement operators. -/
def deref_assert (it : Option Nat) : Bool := it.isSome

/-- Condition of assert(pos != end()) in erase(const_iterator). -/
def erase_assert (it : Option Nat) (s : Nat) : Bool := decide (it ≠ end_ s)

/-! ### Iteration from begin() to end(), with fuel -/

/-- Follow next_ pointers from a starting iterator, collecting the
addresses visited, stopping at the sentinel s (the end iterator) or on a
null pointer, bounded by fuel. -/
def iterate (h : Heap) (s : Nat) : Option Nat → Nat → List Nat
  | _, 0 => []
  | none, _ + 1 => []
  | some a, fuel + 1 => if a = s then [] else a :: iterate h s (h a).next_ fuel

/-- The sequence of node addresses yielded by iterating begin()..end(). -/
def toList (h : Heap) (s : Nat) (fuel : Nat) : List Nat :=
  iterate h s (begin h s) fuel

/-! ### Representation predicate: the chain invariant.

rep h s xs states that the sentinel s anchors a circular doubly-linked
chain whose member addresses, in order, are xs: each consecutive pair of
the circle s, xs, back to s is linked in both directions, and all the
addresses are distinct. -/

/-- Both directions of one chain edge: a.next_ points at b and b.prev_
points back at a. -/
def linksTo (h : Heap) (a b : Nat) : Prop :=
  (h a).next_ = some b ∧ (h b).prev_ = some a

instance instDecLinksTo (h : Heap) (a b : Nat) : Decidable (linksTo h a b) :=
  decidable_of_iff ((h a).next_ = some b ∧ (h b).prev_ = some a) Iff.rfl

/-- pathOk h a ms z: a is doubly linked to the first of ms, consecutive
members of ms are doubly linked, and the last of ms is doubly linked to z
(for empty ms, a is doubly linked directly to z). -/
def pathOk (h : Heap) : Nat → List Nat → Nat → Prop
  | a, [], z => linksTo h a z
  | a, x :: xs, z => linksTo h a x ∧ pathOk h x xs z

instance instDecPathOk (h : Heap) : (a : Nat) → (ms : List Nat) → (z : Nat) →
    Decidable (pathOk h a ms z)
  | a, [], z => decidable_of_iff (linksTo h a z) Iff.rfl
  | a, x :: xs, z =>
    have : Decidable (pathOk h x xs z) := instDecPathOk h x xs z
    decidable_of_iff (linksTo h a x ∧ pathOk h x xs z) Iff.rfl

/-- The chain invariant of a list with sentinel s and members xs. -/
def rep (h : Heap) (s : Nat) (xs : List Nat) : Prop :=
  pathOk h s xs s ∧ (s :: xs).Nodup

instance instDecRep (h : Heap) (s : Nat) (xs : List Nat) : Decidable (rep h s xs) :=
  decidable_of_iff (pathOk h s xs s ∧ (s :: xs).Nodup) Iff.rfl

@[simp] theorem pathOk_nil (h : Heap) (a z : Nat) :
    pathOk h a [] z ↔ linksTo h a z := Iff.rfl

@[simp] theorem pathOk_cons (h : Heap) (a x z : Nat) (xs : List Nat) :
    pathOk h a (x :: xs) z ↔ linksTo h a x ∧ pathOk h x xs z := Iff.rfl

/-- Place a immediately before the first occurrence of p. -/
def absInsert (xs : List Nat) (p a : Nat) : List Nat :=
  match xs with
  | [] => [a]
  | x :: rest => if x = p then a :: x :: rest else x :: absInsert rest p a

/-- One container mutation on a fixed list: the address arguments name
the object (a) and the position (p; the sentinel address denotes the end
iterator). -/
inductive Op where
  | pushFront (a : Nat)
  | pushBack (a : Nat)
  | insertBefore (p a : Nat)
  | eraseAt (p : Nat)
deriving DecidableEq, Repr

/-- Run one operation on the heap. -/
def applyOp (s : Nat) (h : Heap) : Op → Heap
  | .pushFront a => push_front h s a
  | .pushBack a => push_back h s a
  | .insertBefore p a => insert h (some p) a
  | .eraseAt p => erase_at h (some p)

/-- Run a sequence of operations on the heap. -/
def applyOps (s : Nat) : List Op → Heap → Heap
  | [], h => h
  | op :: rest, h => applyOps s rest (applyOp s h op)

/-- The effect of one operation on the abstract member list. -/
def absApply (s : Nat) (xs : List Nat) : Op → List Nat
  | .pushFront a => a :: xs
  | .pushBack a => xs ++ [a]
  | .insertBefore p a => if p = s then xs ++ [a] else absInsert xs p a
  | .eraseAt p => xs.erase p

/-- The effect of a sequence of operations on the abstract member list. -/
def absApplys (s : Nat) : List Op → List Nat → List Nat
  | [], xs => xs
  | op :: rest, xs => absApplys s rest (absApply s xs op)

/-- The precondition of one operation, as the source checks or assumes
it: inserted objects are not already linked, and positions are valid
positions of this list. -/
def preOk (s : Nat) (h : Heap) (xs : List Nat) : Op → Prop
  | .pushFront a => is_linked (h a) = false
  | .pushBack a => is_linked (h a) = false
  | .insertBefore p a => is_linked (h a) = false ∧ (p = s ∨ p ∈ xs)
  | .eraseAt p => p ∈ xs

instance instDecPreOk (s : Nat) (h : Heap) (xs : List Nat) :
    (op : Op) → Decidable (preOk s h xs op)
  | .pushFront a => decidable_of_iff (is_linked (h a) = false) Iff.rfl
  | .pushBack a => decidable_of_iff (is_linked (h a) = false) Iff.rfl
  | .insertBefore p a =>
    decidable_of_iff (is_linked (h a) = false ∧ (p = s ∨ p ∈ xs)) Iff.rfl
  | .eraseAt p => decidable_of_iff (p ∈ xs) Iff.rfl

/-- Every operation of the sequence satisfies its precondition in the
state in which it runs. -/
def opsOk (s : Nat) : List Op → Heap → List Nat → Prop
  | [], _, _ => True
  | op :: rest, h, xs => preOk s h xs op ∧ opsOk s rest (applyOp s h op) (absApply s xs op)

instance instDecOpsOk (s : Nat) :
    (ops : List Op) → (h : Heap) → (xs : List Nat) → Decidable (opsOk s ops h xs)
  | [], _, _ => Decidable.isTrue trivial
  | op :: rest, h, xs =>
    have : Decidable (opsOk s rest (applyOp s h op) (absApply s xs op)) :=
      instDecOpsOk s rest (applyOp s h op) (absApply s xs op)
    decidable_of_iff (preOk s h xs op ∧
      opsOk s rest (applyOp s h op) (absApply s xs op)) Iff.rfl

/-- The per-node invariant of the claim: next_ and prev_ are both null or
both non-null, never mixed. -/
def nodeOk (nd : list_node) : Prop := nd.next_.isSome = nd.prev_.isSome

/-- Every node of the heap satisfies nodeOk. -/
def heapOk (h : Heap) : Prop := ∀ a, nodeOk (h a)

/-- Forward edges are answered by back edges and conversely: the chain
coherence that reachable heaps always enjoy. -/
def coherent (h : Heap) : Prop :=
  (∀ a b, (h a).next_ = some b → (h b).prev_ = some a) ∧
  (∀ a b, (h a).prev_ = some b → (h b).next_ = some a)

/-- The combined reachable-state invariant. -/
def wf (h : Heap) : Prop := heapOk h ∧ coherent h

/-- The common splice heap: the fresh node a is written between the
adjacent pair q, p. push_front, push_back and insert all produce exactly
this heap. -/
def spliceHeap (h : Heap) (a q p : Nat) : Heap :=
  setPrev (setNext (setNode h a ⟨some p, some q⟩) q (some a)) p (some a)

/-! ### Concrete example heaps used to evaluate the development on small
inputs -/

/-- The all-unlinked base heap. -/
def wbase : Heap := fun _ => ⟨none, none⟩

/-- An empty list whose sentinel lives at address 0. -/
def wlist : Heap := intrusive_list_init wbase 0

/-- A sample operation sequence. -/
def wops : List Op :=
  [Op.pushBack 1, Op.pushBack 2, Op.pushFront 3, Op.insertBefore 2 4, Op.eraseAt 1]

/-- The list at 0 holding the members 1, 2, 3. -/
def wthree : Heap := push_back (push_back (push_back wlist 0 1) 0 2) 0 3

/-- The heap wthree extended with a second list at 10 holding 11. -/
def wpair : Heap := push_back (intrusive_list_init wthree 10) 10 11

/-! ### Theorems -/

theorem setNode_same (h : Heap) (a : Nat) (nd : list_node) :
    (setNode h a nd) a = nd := by simp

theorem setNode_ne (h : Heap) (a : Nat) (nd : list_node) (x : Nat) (hx : x ≠ a) :
    (setNode h a nd) x = h x := by simp [hx]

theorem setNext_ne (h : Heap) (a : Nat) (v : Option Nat) (x : Nat) (hx : x ≠ a) :
    (setNext h a v) x = h x := by simp [setNext, hx]

theorem setPrev_ne (h : Heap) (a : Nat) (v : Option Nat) (x : Nat) (hx : x ≠ a) :
    (setPrev h a v) x = h x := by simp [setPrev, hx]

theorem storeNext_some (h : Heap) (a : Nat) (v : Option Nat) :
    storeNext h (some a) v = setNext h a v := rfl

theorem storePrev_some (h : Heap) (a : Nat) (v : Option Nat) :
    storePrev h (some a) v = setPrev h a v := rfl

/-! ### The list_node operations, translated from the source -/

theorem pathOk_append (h : Heap) (a m z : Nat) (l r : List Nat) :
    pathOk h a (l ++ m :: r) z ↔ pathOk h a l m ∧ pathOk h m r z := by
  induction l generalizing a with
  | nil => simp [and_assoc]
  | cons x l ih => simp [ih, and_assoc]

/-- Frame rule: pathOk only reads the nodes of ms in full, the next_
field of the start and the prev_ field of the target. -/
theorem pathOk_frame (h h2 : Heap) (a z : Nat) (ms : List Nat)
    (hmem : ∀ c ∈ ms, h2 c = h c)
    (ha : (h2 a).next_ = (h a).next_)
    (hz : (h2 z).prev_ = (h z).prev_) :
    pathOk h a ms z → pathOk h2 a ms z := by
  induction ms generalizing a with
  | nil => intro hp; exact ⟨ha ▸ hp.1, hz ▸ hp.2⟩
  | cons x xs ih =>
    intro hp
    have hx : h2 x = h x := hmem x (by simp)
    refine ⟨⟨ha ▸ hp.1.1, by rw [hx]; exact hp.1.2⟩, ?_⟩
    exact ih x (fun c hc => hmem c (by simp [hc])) (by rw [hx]) hp.2

/-- Every member of a chain has both fields set: pathOk pins the next_
field of every non-final position and the prev_ field of every non-initial
position. -/
theorem pathOk_mem_next (h : Heap) (z c : Nat) :
    ∀ (ms : List Nat) (a : Nat), pathOk h a ms z → c ∈ ms → (h c).next_.isSome
  | [], _, _, hc => by cases hc
  | x :: xs, a, hp, hc => by
    rcases List.mem_cons.mp hc with hc | hc
    · subst hc
      cases xs with
      | nil => simp [hp.2.1]
      | cons y ys => simp [hp.2.1.1]
    · exact pathOk_mem_next h z c xs x hp.2 hc

theorem pathOk_mem_prev (h : Heap) (z c : Nat) :
    ∀ (ms : List Nat) (a : Nat), pathOk h a ms z → c ∈ ms → (h c).prev_.isSome
  | [], _, _, hc => by cases hc
  | x :: xs, a, hp, hc => by
    rcases List.mem_cons.mp hc with hc | hc
    · subst hc
      simp [hp.1.2]
    · exact pathOk_mem_prev h z c xs x hp.2 hc

/-- Every chain member is linked in the sense of is_linked. -/
theorem rep_mem_is_linked (h : Heap) (s : Nat) (xs : List Nat) (c : Nat)
    (hr : rep h s xs) (hc : c ∈ xs) : is_linked (h c) = true := by
  have := pathOk_mem_next h s c xs s hr.1 hc
  simp [is_linked, this]

/-- The sentinel of a constructed list is always linked (self-loop when
empty). -/
theorem rep_sentinel_is_linked (h : Heap) (s : Nat) (xs : List Nat)
    (hr : rep h s xs) : is_linked (h s) = true := by
  cases xs with
  | nil => simp [is_linked, hr.1.1]
  | cons x xs => simp [is_linked, hr.1.1.1]

/-- An unlinked node is neither the sentinel nor a member of the chain. -/
theorem rep_unlinked_fresh (h : Heap) (s : Nat) (xs : List Nat) (a : Nat)
    (hr : rep h s xs) (ha : is_linked (h a) = false) : a ≠ s ∧ a ∉ xs := by
  constructor
  · intro hEq
    rw [hEq] at ha
    rw [rep_sentinel_is_linked h s xs hr] at ha
    cases ha
  · intro hmem
    rw [rep_mem_is_linked h s xs a hr hmem] at ha
    cases ha

/-- Under rep, empty is true exactly when the member list is empty. -/
theorem rep_empty_iff (h : Heap) (s : Nat) (xs : List Nat) (hr : rep h s xs) :
    empty h s = true ↔ xs = [] := by
  cases xs with
  | nil => simp [empty, hr.1.1]
  | cons x xs =>
    have hx : (h s).next_ = some x := hr.1.1.1
    have hxs : x ≠ s := by
      have := hr.2
      simp only [List.nodup_cons, List.mem_cons] at this
      intro hEq
      exact this.1 (Or.inl hEq.symm)
    simp [empty, hx, hxs]

/-! ### Iteration visits exactly the chain members, in order -/

theorem iterate_of_pathOk (h : Heap) (s : Nat) :
    ∀ (ms : List Nat) (a : Nat), pathOk h a ms s → s ∉ ms →
      iterate h s (h a).next_ (ms.length + 1) = ms
  | [], a, hp, _ => by
    have : (h a).next_ = some s := hp.1
    simp [this, iterate]
  | x :: xs, a, hp, hs => by
    have hx : (h a).next_ = some x := hp.1.1
    have hxs : x ≠ s := by
      intro hEq
      exact hs (hEq ▸ List.mem_cons_self x xs)
    have := iterate_of_pathOk h s xs x hp.2 (fun hm => hs (List.mem_cons_of_mem x hm))
    simp [hx, iterate, hxs, this]

/-- Under the chain invariant, iterating begin()..end() yields exactly the
member addresses, in order. -/
theorem rep_toList (h : Heap) (s : Nat) (xs : List Nat) (hr : rep h s xs) :
    toList h s (xs.length + 1) = xs := by
  have hs : s ∉ xs := by
    have := hr.2
    simp only [List.nodup_cons] at this
    exact this.1
  exact iterate_of_pathOk h s xs s hr.1 hs

/-! ### Boundary facts of a chain -/

/-- The prev_ field of the sentinel of a non-empty chain points at the
last member. -/
theorem rep_sentinel_prev_last (h : Heap) (s l : Nat) (init : List Nat)
    (hr : rep h s (init ++ [l])) : (h s).prev_ = some l := by
  have := (pathOk_append h s l s init []).mp hr.1
  exact this.2.2

/-- The prev_ field of the sentinel of an empty chain points at the
sentinel. -/
theorem rep_sentinel_prev_nil (h : Heap) (s : Nat) (hr : rep h s []) :
    (h s).prev_ = some s := hr.1.2

/-! ### push_front preserves the chain invariant, prepending the node -/

theorem rep_push_front (h : Heap) (s a : Nat) (xs : List Nat)
    (hr : rep h s xs) (has : a ≠ s) (hax : a ∉ xs) :
    rep (push_front h s a) s (a :: xs) := by
  have hsa : s ≠ a := Ne.symm has
  cases xs with
  | nil =>
    have hf : (h s).next_ = some s := hr.1.1
    refine ⟨⟨⟨?_, ?_⟩, ?_, ?_⟩, ?_⟩ <;>
      simp [push_front, storePrev, hf, hsa, has]
  | cons x rest =>
    have hnd := hr.2
    simp only [List.nodup_cons, List.mem_cons, not_or] at hnd
    have hsx : s ≠ x := hnd.1.1
    have hsrest : s ∉ rest := hnd.1.2
    have hxrest : x ∉ rest := hnd.2.1
    have hax' : a ≠ x := fun hEq => hax (hEq ▸ List.mem_cons_self x rest)
    have harest : a ∉ rest := fun hm => hax (List.mem_cons_of_mem x hm)
    have hf : (h s).next_ = some x := hr.1.1.1
    have hxa : x ≠ a := Ne.symm hax'
    have hxs : x ≠ s := Ne.symm hsx
    refine ⟨⟨⟨?_, ?_⟩, ⟨?_, ?_⟩, ?_⟩, ?_⟩
    · simp [push_front, storePrev, hf, hsa, hxs]
    · simp [push_front, storePrev, hf, hsa, has, hax', hxa]
    · simp [push_front, storePrev, hf, hsa, has, hax', hxa]
    · simp [push_front, storePrev, hf, hsa, hxs, hxa]
    · refine pathOk_frame h _ x s rest ?_ ?_ ?_ hr.1.2
      · intro c hc
        have hca : c ≠ a := fun hEq => harest (hEq ▸ hc)
        have hcx : c ≠ x := fun hEq => hxrest (hEq ▸ hc)
        have hcs : c ≠ s := fun hEq => hsrest (hEq ▸ hc)
        simp [push_front, storePrev, hf, setNext, setPrev, setNode, hsa, hca, hcx, hcs]
      · simp [push_front, storePrev, hf, hsa, hxs, hxa]
      · simp [push_front, storePrev, hf, hsa, hsx]
    · simp only [List.nodup_cons, List.mem_cons, not_or]
      exact ⟨⟨hsa, hsx, hsrest⟩, ⟨hax', harest⟩, hxrest,
        ((List.nodup_cons.mp (List.nodup_cons.mp hr.2).2).2)⟩

/-! ### Nodup bookkeeping helpers for the ring s :: xs -/

theorem nodup_ring_snoc (s a : Nat) (xs : List Nat) (hnd : (s :: xs).Nodup)
    (has : a ≠ s) (hax : a ∉ xs) : (s :: (xs ++ [a])).Nodup := by
  have : s :: (xs ++ [a]) = (s :: xs) ++ [a] := rfl
  rw [this]
  refine hnd.append (List.nodup_singleton a) ?_
  intro x hx hxa
  simp only [List.mem_singleton] at hxa
  subst hxa
  rcases List.mem_cons.mp hx with hx | hx
  · exact has hx
  · exact hax hx

theorem nodup_ring_mid (s a p : Nat) (l r : List Nat)
    (hnd : (s :: (l ++ p :: r)).Nodup) (has : a ≠ s) (hax : a ∉ l ++ p :: r) :
    (s :: (l ++ a :: p :: r)).Nodup := by
  have hperm : List.Perm (l ++ a :: p :: r) (a :: (l ++ p :: r)) := List.perm_middle
  rw [(hperm.cons s).nodup_iff]
  simp only [List.nodup_cons, List.mem_cons, not_or] at hnd ⊢
  exact ⟨⟨Ne.symm has, hnd.1⟩, hax, hnd.2⟩

/-! ### push_back preserves the chain invariant, appending the node -/

theorem rep_push_back (h : Heap) (s a : Nat) (xs : List Nat)
    (hr : rep h s xs) (has : a ≠ s) (hax : a ∉ xs) :
    rep (push_back h s a) s (xs ++ [a]) := by
  have hsa : s ≠ a := Ne.symm has
  rcases List.eq_nil_or_concat xs with rfl | ⟨init, l, hxs⟩
  · have hp : (h s).prev_ = some s := hr.1.2
    refine ⟨⟨⟨?_, ?_⟩, ?_, ?_⟩, ?_⟩ <;>
      simp [push_back, storeNext, hp, hsa, has]
  · rw [List.concat_eq_append] at hxs
    subst hxs
    have hp : (h s).prev_ = some l := rep_sentinel_prev_last h s l init hr
    have hsplit := (pathOk_append h s l s init []).mp hr.1
    have hnd := hr.2
    have hndl : l ∉ init := by
      have : (init ++ [l]).Nodup := (List.nodup_cons.mp hnd).2
      have := List.disjoint_of_nodup_append this
      intro hm
      exact this hm (List.mem_singleton_self l)
    have hsl : s ≠ l := by
      have := (List.nodup_cons.mp hnd).1
      intro hEq
      exact this (by rw [hEq]; exact List.mem_append_right init (List.mem_singleton_self l))
    have hsinit : s ∉ init := by
      have := (List.nodup_cons.mp hnd).1
      intro hm
      exact this (List.mem_append_left [l] hm)
    have hal : a ≠ l := by
      intro hEq
      exact hax (by rw [hEq]; exact List.mem_append_right init (List.mem_singleton_self l))
    have hainit : a ∉ init := fun hm => hax (List.mem_append_left [l] hm)
    have hls : l ≠ s := Ne.symm hsl
    have hla : l ≠ a := Ne.symm hal
    have hgoal : init ++ [l] ++ [a] = init ++ l :: [a] := by simp
    rw [hgoal]
    refine ⟨(pathOk_append _ s l s init [a]).mpr ⟨?_, ?_⟩, ?_⟩
    · refine pathOk_frame h _ s l init ?_ ?_ ?_ hsplit.1
      · intro c hc
        have hca : c ≠ a := fun hEq => hainit (hEq ▸ hc)
        have hcl : c ≠ l := fun hEq => hndl (hEq ▸ hc)
        have hcs : c ≠ s := fun hEq => hsinit (hEq ▸ hc)
        simp [push_back, storeNext, hp, setNext, setPrev, setNode, hsa, hca, hcl, hcs]
      · simp [push_back, storeNext, hp, hsa, hsl]
      · simp [push_back, storeNext, hp, hsa, hls, hla]
    · refine ⟨⟨?_, ?_⟩, ?_, ?_⟩
      · simp [push_back, storeNext, hp, hsa, hls]
      · simp [push_back, storeNext, hp, hsa, has]
      · simp [push_back, storeNext, hp, hsa, has, hal]
      · simp [push_back, storeNext, hp, hsa]
    · have := nodup_ring_snoc s a (init ++ [l]) hnd has hax
      simpa using this

/-! ### unlink characterization and erase -/

/-- On a linked node with distinct neighbors, unlink resolves to: repoint
the next neighbor prev_ field, repoint the prev neighbor next_ field,
clear the own node. -/
theorem unlink_linked (h : Heap) (a n p : Nat)
    (hn : (h a).next_ = some n) (hp : (h a).prev_ = some p) (hna : n ≠ a) :
    unlink h a = setNode (setNext (setPrev h n (some p)) p (some n)) a ⟨none, none⟩ := by
  have hl : is_linked (h a) = true := by simp [is_linked, hn]
  have han : a ≠ n := Ne.symm hna
  simp [unlink, hl, hn, hp, storePrev, storeNext, han]

/-- On any linked node, with no assumption on how the neighbor addresses
relate, unlink resolves to the same three writes: the next neighbor
prev_ field is repointed, the prev neighbor next_ field is repointed,
and the own node is cleared.  The live read of the own prev_ field after
the first write yields some p in every case, including a self-looped
node (n = a), because the first write then stores exactly the value that
was already there. -/
theorem unlink_linked_all (h : Heap) (a n p : Nat)
    (hn : (h a).next_ = some n) (hp : (h a).prev_ = some p) :
    unlink h a = setNode (setNext (setPrev h n (some p)) p (some n)) a ⟨none, none⟩ := by
  have hl : is_linked (h a) = true := by simp [is_linked, hn]
  have e1 : storePrev h (h a).next_ (h a).prev_ = setPrev h n (some p) := by
    rw [hn, hp]
    rfl
  have e2 : ((setPrev h n (some p)) a).prev_ = some p := by
    by_cases han : a = n <;> simp [setPrev, han, hp]
  have e3 : ((setPrev h n (some p)) a).next_ = some n := by
    simp [hn]
  simp only [unlink, if_pos hl, e1, e2, e3, storeNext]

/-- Erasing a chain member yields the chain without it. -/
theorem rep_erase_split (h : Heap) (s p : Nat) (l r : List Nat)
    (hr : rep h s (l ++ p :: r)) :
    rep (unlink h p) s (l ++ r) := by
  have hnd := hr.2
  have hsnot : s ∉ l ++ p :: r := (List.nodup_cons.mp hnd).1
  have hnd2 : (l ++ p :: r).Nodup := (List.nodup_cons.mp hnd).2
  have hdisj : l.Disjoint (p :: r) := List.disjoint_of_nodup_append hnd2
  have hndl : l.Nodup := hnd2.of_append_left
  have hndpr : (p :: r).Nodup := hnd2.of_append_right
  have hpr : p ∉ r := (List.nodup_cons.mp hndpr).1
  have hsp : s ≠ p := fun hEq => hsnot (by
    rw [hEq]; exact List.mem_append_right l (List.mem_cons_self p r))
  have hps : p ≠ s := Ne.symm hsp
  have hsl : s ∉ l := fun hm => hsnot (List.mem_append_left _ hm)
  have hsr : s ∉ r := fun hm => hsnot (by
    exact List.mem_append_right l (List.mem_cons_of_mem p hm))
  have hpl : p ∉ l := fun hm => hdisj hm (List.mem_cons_self p r)
  have hsplit := (pathOk_append h s p s l r).mp hr.1
  -- the address before p in the circle
  rcases List.eq_nil_or_concat l with rfl | ⟨init, q, hl'⟩
  · -- p is the first member: the prev neighbor is the sentinel
    have hq : (h p).prev_ = some s := hsplit.1.2
    cases r with
    | nil =>
      have hn : (h p).next_ = some s := hsplit.2.1
      rw [unlink_linked h p s s hn hq hsp]
      exact ⟨⟨by simp [hsp], by simp [hsp]⟩, by simp⟩
    | cons c r' =>
      have hn : (h p).next_ = some c := hsplit.2.1.1
      have hcp : c ≠ p := fun hEq => hpr (hEq ▸ List.mem_cons_self c r')
      have hcs : c ≠ s := fun hEq => hsr (hEq ▸ List.mem_cons_self c r')
      have hcr' : c ∉ r' := (List.nodup_cons.mp (List.nodup_cons.mp hndpr).2).1
      rw [unlink_linked h p c s hn hq hcp]
      refine ⟨⟨⟨?_, ?_⟩, ?_⟩, ?_⟩
      · simp [hps, hsp, hcs]
      · simp [hcp, hcs]
      · refine pathOk_frame h _ c s r' ?_ ?_ ?_ hsplit.2.2
        · intro x hx
          have hxp : x ≠ p := fun hEq => hpr (hEq ▸ List.mem_cons_of_mem c hx)
          have hxs : x ≠ s := fun hEq => hsr (hEq ▸ List.mem_cons_of_mem c hx)
          have hxc : x ≠ c := fun hEq => hcr' (hEq ▸ hx)
          simp [setNode, setNext, setPrev, hxp, hxs, hxc]
        · simp [hcp, hcs]
        · simp [hsp, hps, Ne.symm hcs]
      · have : (s :: (p :: c :: r')).Nodup := by simpa using hnd
        have hsub : (s :: (c :: r')).Sublist (s :: (p :: c :: r')) := by
          refine List.Sublist.cons₂ s ?_
          exact List.sublist_cons_self p (c :: r')
        simpa using hsub.nodup this
  · rw [List.concat_eq_append] at hl'
    subst hl'
    have hqmem : q ∈ init ++ [q] := List.mem_append_right init (List.mem_singleton_self q)
    have hqs : q ≠ s := fun hEq => hsl (hEq ▸ hqmem)
    have hqp : q ≠ p := fun hEq => hpl (hEq ▸ hqmem)
    have hpq : p ≠ q := Ne.symm hqp
    have hsq : s ≠ q := Ne.symm hqs
    have hqinit : q ∉ init :=
      fun hm => (List.disjoint_of_nodup_append hndl) hm (List.mem_singleton_self q)
    have hsplitl := (pathOk_append h s q p init []).mp hsplit.1
    have hq : (h p).prev_ = some q := hsplitl.2.2
    have hinit_ne : ∀ x ∈ init, x ≠ p ∧ x ≠ q ∧ x ≠ s := by
      intro x hx
      refine ⟨fun hEq => hpl (hEq ▸ List.mem_append_left [q] hx), ?_,
        fun hEq => hsl (hEq ▸ List.mem_append_left [q] hx)⟩
      exact fun hEq => hqinit (hEq ▸ hx)
    cases r with
    | nil =>
      have hn : (h p).next_ = some s := hsplit.2.1
      rw [unlink_linked h p s q hn hq hsp]
      simp only [List.append_nil]
      refine ⟨(pathOk_append _ s q s init []).mpr ⟨?_, ?_, ?_⟩, ?_⟩
      · refine pathOk_frame h _ s q init ?_ ?_ ?_ hsplitl.1
        · intro x hx
          obtain ⟨hxp, hxq, hxs⟩ := hinit_ne x hx
          simp [setNode, setNext, setPrev, hxp, hxq, hxs]
        · simp [hsp, hsq]
        · simp [hqp, hqs]
      · simp [hqp]
      · simp [hsp, hps]
      · have hsub : (s :: (init ++ [q])).Sublist (s :: (init ++ [q] ++ [p])) := by
          refine List.Sublist.cons₂ s ?_
          exact List.sublist_append_left (init ++ [q]) [p]
        have : (s :: (init ++ [q] ++ [p])).Nodup := by simpa using hnd
        exact hsub.nodup this
    | cons c r' =>
      have hn : (h p).next_ = some c := hsplit.2.1.1
      have hcmem : c ∈ p :: c :: r' := List.mem_cons_of_mem p (List.mem_cons_self c r')
      have hcp : c ≠ p := fun hEq => hpr (hEq ▸ List.mem_cons_self c r')
      have hcs : c ≠ s := fun hEq => hsr (hEq ▸ List.mem_cons_self c r')
      have hcq : c ≠ q := fun hEq => hdisj (hEq ▸ hqmem) hcmem
      have hcr' : c ∉ r' := (List.nodup_cons.mp (List.nodup_cons.mp hndpr).2).1
      have hqc : q ≠ c := Ne.symm hcq
      rw [unlink_linked h p c q hn hq hcp]
      have hgoal : init ++ [q] ++ c :: r' = init ++ q :: (c :: r') := by simp
      rw [hgoal]
      refine ⟨(pathOk_append _ s q s init (c :: r')).mpr ⟨?_, ⟨?_, ?_⟩, ?_⟩, ?_⟩
      · refine pathOk_frame h _ s q init ?_ ?_ ?_ hsplitl.1
        · intro x hx
          obtain ⟨hxp, hxq, hxs⟩ := hinit_ne x hx
          have hxc : x ≠ c := fun hEq =>
            hdisj (hEq ▸ List.mem_append_left [q] hx) hcmem
          simp [setNode, setNext, setPrev, hxp, hxq, hxs, hxc]
        · simp [hsp, hsq]
        · simp [hqp, hqc]
      · simp [hqp]
      · simp [hcp, hcq]
      · refine pathOk_frame h _ c s r' ?_ ?_ ?_ hsplit.2.2
        · intro x hx
          have hxp : x ≠ p := fun hEq => hpr (hEq ▸ List.mem_cons_of_mem c hx)
          have hxs : x ≠ s := fun hEq => hsr (hEq ▸ List.mem_cons_of_mem c hx)
          have hxc : x ≠ c := fun hEq => hcr' (hEq ▸ hx)
          have hxq : x ≠ q := fun hEq =>
            hdisj (hEq ▸ hqmem) (List.mem_cons_of_mem p (List.mem_cons_of_mem c hx))
          simp [setNode, setNext, setPrev, hxp, hxq, hxs, hxc]
        · simp [hcp, hcq]
        · simp [hsp, hsq, hps, Ne.symm hcs]
      · have hsub : (s :: (init ++ q :: c :: r')).Sublist
            (s :: (init ++ q :: p :: c :: r')) := by
          refine List.Sublist.cons₂ s ?_
          refine List.Sublist.append_left ?_ init
          exact List.Sublist.cons₂ q (List.sublist_cons_self p (c :: r'))
        have : (s :: (init ++ q :: p :: c :: r')).Nodup := by simpa using hnd
        exact hsub.nodup this

/-! ### insert preserves the chain invariant, placing the new node
immediately before the given position -/

/-- Inserting before the end iterator is, statement for statement, the
same heap transformation as push_back. -/
theorem insert_end_eq_push_back (h : Heap) (s a : Nat) :
    insert h (end_ s) a = push_back h s a := rfl

theorem rep_insert_split (h : Heap) (s p a : Nat) (l r : List Nat)
    (hr : rep h s (l ++ p :: r)) (has : a ≠ s) (hax : a ∉ l ++ p :: r) :
    rep (insert h (some p) a) s (l ++ a :: p :: r) := by
  have hnd := hr.2
  have hsa : s ≠ a := Ne.symm has
  have hsnot : s ∉ l ++ p :: r := (List.nodup_cons.mp hnd).1
  have hnd2 : (l ++ p :: r).Nodup := (List.nodup_cons.mp hnd).2
  have hdisj : l.Disjoint (p :: r) := List.disjoint_of_nodup_append hnd2
  have hndl : l.Nodup := hnd2.of_append_left
  have hndpr : (p :: r).Nodup := hnd2.of_append_right
  have hpr : p ∉ r := (List.nodup_cons.mp hndpr).1
  have hpmem : p ∈ l ++ p :: r := List.mem_append_right l (List.mem_cons_self p r)
  have hsp : s ≠ p := fun hEq => hsnot (hEq ▸ hpmem)
  have hps : p ≠ s := Ne.symm hsp
  have hap : a ≠ p := fun hEq => hax (hEq ▸ hpmem)
  have hpa : p ≠ a := Ne.symm hap
  have hsl : s ∉ l := fun hm => hsnot (List.mem_append_left _ hm)
  have hsr : s ∉ r := fun hm =>
    hsnot (List.mem_append_right l (List.mem_cons_of_mem p hm))
  have har : a ∉ r := fun hm =>
    hax (List.mem_append_right l (List.mem_cons_of_mem p hm))
  have hal : a ∉ l := fun hm => hax (List.mem_append_left _ hm)
  have hsplit := (pathOk_append h s p s l r).mp hr.1
  have hndgoal : (s :: (l ++ a :: p :: r)).Nodup := nodup_ring_mid s a p l r hnd has hax
  rcases List.eq_nil_or_concat l with rfl | ⟨init, q, hl'⟩
  · have hq : (h p).prev_ = some s := hsplit.1.2
    refine ⟨⟨⟨?_, ?_⟩, ⟨?_, ?_⟩, ?_⟩, hndgoal⟩
    · simp [insert, storeNext, hq, hpa, hps]
    · simp [insert, storeNext, hq, hpa, hap, hsa, has]
    · simp [insert, storeNext, hq, hpa, hap, hsa, has]
    · simp [insert, storeNext, hq, hpa]
    · refine pathOk_frame h _ p s r ?_ ?_ ?_ hsplit.2
      · intro x hx
        have hxp : x ≠ p := fun hEq => hpr (hEq ▸ hx)
        have hxs : x ≠ s := fun hEq => hsr (hEq ▸ hx)
        have hxa : x ≠ a := fun hEq => har (hEq ▸ hx)
        simp [insert, storeNext, hq, hpa, setNode, setNext, setPrev, hxp, hxs, hxa]
      · simp [insert, storeNext, hq, hpa, hps, hpa]
      · simp [insert, storeNext, hq, hpa, hsp, hsa]
  · rw [List.concat_eq_append] at hl'
    subst hl'
    have hqmem : q ∈ init ++ [q] := List.mem_append_right init (List.mem_singleton_self q)
    have hqs : q ≠ s := fun hEq => hsl (hEq ▸ hqmem)
    have hqp : q ≠ p := fun hEq => hdisj hqmem (hEq ▸ List.mem_cons_self p r)
    have hqa : q ≠ a := fun hEq => hal (hEq ▸ hqmem)
    have hpq : p ≠ q := Ne.symm hqp
    have hsq : s ≠ q := Ne.symm hqs
    have haq : a ≠ q := Ne.symm hqa
    have hqinit : q ∉ init :=
      fun hm => (List.disjoint_of_nodup_append hndl) hm (List.mem_singleton_self q)
    have hsplitl := (pathOk_append h s q p init []).mp hsplit.1
    have hq : (h p).prev_ = some q := hsplitl.2.2
    have hgoal : init ++ [q] ++ a :: p :: r = init ++ q :: (a :: p :: r) := by simp
    rw [hgoal]
    refine ⟨(pathOk_append _ s q s init (a :: p :: r)).mpr
      ⟨?_, ⟨?_, ?_⟩, ⟨?_, ?_⟩, ?_⟩, by simpa using hndgoal⟩
    · refine pathOk_frame h _ s q init ?_ ?_ ?_ hsplitl.1
      · intro x hx
        have hxq : x ≠ q := fun hEq => hqinit (hEq ▸ hx)
        have hxp : x ≠ p := fun hEq => hdisj
          (hEq ▸ List.mem_append_left [q] hx) (List.mem_cons_self p r)
        have hxs : x ≠ s := fun hEq => hsl (hEq ▸ List.mem_append_left [q] hx)
        have hxa : x ≠ a := fun hEq => hal (hEq ▸ List.mem_append_left [q] hx)
        simp [insert, storeNext, hq, hpa, setNode, setNext, setPrev, hxp, hxs, hxa, hxq]
      · simp [insert, storeNext, hq, hpa, hsp, hsa, hsq]
      · simp [insert, storeNext, hq, hpa, hqp, hqa]
    · simp [insert, storeNext, hq, hpa, hqp]
    · simp [insert, storeNext, hq, hpa, hap, hsa, haq]
    · simp [insert, storeNext, hq, hpa, hap, hsa, haq]
    · simp [insert, storeNext, hq, hpa]
    · refine pathOk_frame h _ p s r ?_ ?_ ?_ hsplit.2
      · intro x hx
        have hxp : x ≠ p := fun hEq => hpr (hEq ▸ hx)
        have hxs : x ≠ s := fun hEq => hsr (hEq ▸ hx)
        have hxa : x ≠ a := fun hEq => har (hEq ▸ hx)
        have hxq : x ≠ q := fun hEq =>
          hdisj (hEq ▸ hqmem) (List.mem_cons_of_mem p hx)
        simp [insert, storeNext, hq, hpa, setNode, setNext, setPrev, hxp, hxs, hxa, hxq]
      · simp [insert, storeNext, hq, hpa, hps, hpq]
      · simp [insert, storeNext, hq, hpa, hsp, hsa, hsq]

/-! ### Abstract insertion before a member, and membership forms of the
insert and erase lemmas -/

theorem absInsert_split (p a : Nat) (r : List Nat) :
    ∀ l : List Nat, p ∉ l → absInsert (l ++ p :: r) p a = l ++ a :: p :: r
  | [], _ => by simp [absInsert]
  | x :: l, hp => by
    have hxp : x ≠ p := fun hEq => hp (hEq ▸ List.mem_cons_self x l)
    have := absInsert_split p a r l (fun hm => hp (List.mem_cons_of_mem x hm))
    simp [absInsert, hxp, this]

/-- Split a nodup list at a member, with the member not in the left
part. -/
theorem split_at_mem (xs : List Nat) (p : Nat) (hmem : p ∈ xs)
    (hnd : xs.Nodup) : ∃ l r, xs = l ++ p :: r ∧ p ∉ l := by
  obtain ⟨l, r, rfl⟩ := List.append_of_mem hmem
  refine ⟨l, r, rfl, fun hm => ?_⟩
  exact (List.disjoint_of_nodup_append hnd) hm (List.mem_cons_self p r)

theorem rep_insert_mem (h : Heap) (s p a : Nat) (xs : List Nat)
    (hr : rep h s xs) (hp : p ∈ xs) (ha : is_linked (h a) = false) :
    rep (insert h (some p) a) s (absInsert xs p a) := by
  obtain ⟨has, hax⟩ := rep_unlinked_fresh h s xs a hr ha
  obtain ⟨l, r, rfl, hpl⟩ := split_at_mem xs p hp (List.nodup_cons.mp hr.2).2
  rw [absInsert_split p a r l hpl]
  exact rep_insert_split h s p a l r hr has hax

theorem rep_erase_mem (h : Heap) (s p : Nat) (xs : List Nat)
    (hr : rep h s xs) (hp : p ∈ xs) :
    rep (unlink h p) s (xs.erase p) := by
  obtain ⟨l, r, rfl, hpl⟩ := split_at_mem xs p hp (List.nodup_cons.mp hr.2).2
  rw [List.erase_append_right _ hpl, List.erase_cons_head]
  exact rep_erase_split h s p l r hr

/-- Unlinking an already-unlinked node is a no-op on the heap. -/
theorem unlink_not_linked (h : Heap) (a : Nat) (ha : is_linked (h a) = false) :
    unlink h a = h := by
  simp [unlink, ha]

/-! ### pop_front, pop_back, clear -/

theorem rep_pop_front (h : Heap) (s x : Nat) (rest : List Nat)
    (hr : rep h s (x :: rest)) : rep (pop_front h s) s rest := by
  have hx : (h s).next_ = some x := hr.1.1.1
  have he : pop_front h s = unlink h x := by simp [pop_front, hx]
  rw [he]
  have := rep_erase_split h s x [] rest (by simpa using hr)
  simpa using this

theorem rep_pop_back (h : Heap) (s l : Nat) (init : List Nat)
    (hr : rep h s (init ++ [l])) : rep (pop_back h s) s init := by
  have hx : (h s).prev_ = some l := rep_sentinel_prev_last h s l init hr
  have he : pop_back h s = unlink h l := by simp [pop_back, hx]
  rw [he]
  have := rep_erase_split h s l init [] hr
  simpa using this

theorem rep_clear (s : Nat) :
    ∀ (fuel : Nat) (h : Heap) (xs : List Nat), rep h s xs →
      xs.length ≤ fuel → rep (clear s fuel h) s []
  | 0, h, xs, hr, hlen => by
    have : xs = [] := List.eq_nil_of_length_eq_zero (Nat.le_zero.mp hlen)
    subst this
    exact hr
  | fuel + 1, h, xs, hr, hlen => by
    cases xs with
    | nil =>
      have he : empty h s = true := (rep_empty_iff h s [] hr).mpr rfl
      simpa [clear, he] using hr
    | cons x rest =>
      have he : empty h s = false := by
        rcases Bool.eq_false_or_eq_true (empty h s) with hb | hb
        · exact absurd ((rep_empty_iff h s (x :: rest) hr).mp hb) (by simp)
        · exact hb
      have hr2 := rep_pop_front h s x rest hr
      have hlen2 : rest.length ≤ fuel := by
        have : rest.length + 1 ≤ fuel + 1 := by simpa using hlen
        exact Nat.le_of_succ_le_succ this
      simpa [clear, he] using rep_clear s fuel (pop_front h s) rest hr2 hlen2

/-! ### Reseating a whole chain onto a new sentinel (the swap operation) -/

/-- Along a path, every member's next_ points at another member or at the
final target. -/
theorem pathOk_next_in (h : Heap) (z : Nat) :
    ∀ (ms : List Nat) (a : Nat), pathOk h a ms z →
      ∀ c ∈ ms, ∃ d, (h c).next_ = some d ∧ (d ∈ ms ∨ d = z)
  | [], _, _, c, hc => absurd hc (List.not_mem_nil c)
  | y :: ms', a, hp, c, hc => by
    rcases List.mem_cons.mp hc with hc | hc
    · subst hc
      cases ms' with
      | nil => exact ⟨z, hp.2.1, Or.inr rfl⟩
      | cons c₂ ms'' =>
        exact ⟨c₂, hp.2.1.1, Or.inl (List.mem_cons_of_mem c (List.mem_cons_self c₂ ms''))⟩
    · obtain ⟨d, hd, hin⟩ := pathOk_next_in h z ms' y hp.2 c hc
      refine ⟨d, hd, ?_⟩
      rcases hin with hin | hin
      · exact Or.inl (List.mem_cons_of_mem y hin)
      · exact Or.inr hin

/-- Along a path, every member's prev_ points at the start or at another
member. -/
theorem pathOk_prev_in (h : Heap) (z : Nat) :
    ∀ (ms : List Nat) (a : Nat), pathOk h a ms z →
      ∀ c ∈ ms, ∃ d, (h c).prev_ = some d ∧ (d = a ∨ d ∈ ms)
  | [], _, _, c, hc => absurd hc (List.not_mem_nil c)
  | y :: ms', a, hp, c, hc => by
    rcases List.mem_cons.mp hc with hc | hc
    · subst hc
      exact ⟨a, hp.1.2, Or.inl rfl⟩
    · obtain ⟨d, hd, hin⟩ := pathOk_prev_in h z ms' y hp.2 c hc
      refine ⟨d, hd, ?_⟩
      rcases hin with hin | hin
      · exact Or.inr (hin ▸ List.mem_cons_self y ms')
      · exact Or.inr (List.mem_cons_of_mem y hin)

/-- Reseating: if a new heap keeps a chain intact except that every
pointer into the old sentinel is redirected at the new sentinel, and the
new sentinel takes over the old boundary pointers, the chain invariant
holds at the new sentinel. -/
theorem rep_reseat (h h2 : Heap) (sOld sNew : Nat) (ms : List Nat)
    (hp : pathOk h sOld ms sOld)
    (hnd : (sOld :: ms).Nodup)
    (hne : ms ≠ [])
    (hnn : (h2 sNew).next_ = (h sOld).next_)
    (hnp : (h2 sNew).prev_ = (h sOld).prev_)
    (hPrevHead : ∀ c ∈ ms, (h c).prev_ = some sOld → (h2 c).prev_ = some sNew)
    (hNextLast : ∀ c ∈ ms, (h c).next_ = some sOld → (h2 c).next_ = some sNew)
    (hNextKeep : ∀ c ∈ ms, ∀ d, d ≠ sOld → (h c).next_ = some d → (h2 c).next_ = some d)
    (hPrevKeep : ∀ c ∈ ms, ∀ d, d ≠ sOld → (h c).prev_ = some d → (h2 c).prev_ = some d)
    (hndNew : (sNew :: ms).Nodup) :
    rep h2 sNew ms := by
  refine ⟨?_, hndNew⟩
  cases ms with
  | nil => exact absurd rfl hne
  | cons y ms' =>
    have hOldNotMem : sOld ∉ y :: ms' := (List.nodup_cons.mp hnd).1
    have haux : ∀ (ms₂ : List Nat) (a : Nat), a ∈ y :: ms' →
        (∀ c ∈ ms₂, c ∈ y :: ms') → pathOk h a ms₂ sOld → pathOk h2 a ms₂ sNew := by
      intro ms₂
      induction ms₂ with
      | nil =>
        intro a ha _ hpa
        exact ⟨hNextLast a ha hpa.1, by rw [hnp]; exact hpa.2⟩
      | cons c ms₃ ih =>
        intro a ha hsub hpa
        have hc : c ∈ y :: ms' := hsub c (List.mem_cons_self c ms₃)
        have hcOld : c ≠ sOld := fun hEq => hOldNotMem (hEq ▸ hc)
        have haOld : a ≠ sOld := fun hEq => hOldNotMem (hEq ▸ ha)
        refine ⟨⟨hNextKeep a ha c hcOld hpa.1.1, hPrevKeep c hc a haOld hpa.1.2⟩, ?_⟩
        exact ih c hc (fun x hx => hsub x (List.mem_cons_of_mem c hx)) hpa.2
    refine ⟨⟨by rw [hnn]; exact hp.1.1, hPrevHead y (List.mem_cons_self y ms') hp.1.2⟩, ?_⟩
    exact haux ms' y (List.mem_cons_self y ms')
      (fun c hc => List.mem_cons_of_mem y hc) hp.2

/-- Transplanting a non-empty chain onto а new sentinel: the new heap
differs on the chain only at the head prev_ pointer and the tail next_
pointer, both now aimed at the new sentinel, and the new sentinel holds
the old boundary pointers. -/
theorem rep_transplant (h h2 : Heap) (sOld sNew y L : Nat) (tail init : List Nat)
    (hr : rep h sOld (y :: tail))
    (hconcat : y :: tail = init ++ [L])
    (hNotMem : sNew ∉ y :: tail)
    (hnn : (h2 sNew).next_ = (h sOld).next_)
    (hnp : (h2 sNew).prev_ = (h sOld).prev_)
    (hform_next : ∀ c ∈ y :: tail, (h2 c).next_ =
      if c = L then some sNew else (h c).next_)
    (hform_prev : ∀ c ∈ y :: tail, (h2 c).prev_ =
      if c = y then some sNew else (h c).prev_) :
    rep h2 sNew (y :: tail) := by
  have hOldNotMem : sOld ∉ y :: tail := (List.nodup_cons.mp hr.2).1
  have hsplit := (pathOk_append h sOld L sOld init []).mp (by rw [← hconcat]; exact hr.1)
  have hLnext : (h L).next_ = some sOld := hsplit.2.1
  refine rep_reseat h h2 sOld sNew (y :: tail) hr.1 hr.2 (by simp) hnn hnp
    ?_ ?_ ?_ ?_ (List.nodup_cons.mpr ⟨hNotMem, (List.nodup_cons.mp hr.2).2⟩)
  · intro c hc hcp
    rw [hform_prev c hc]
    rcases List.mem_cons.mp hc with hcy | hct
    · simp [hcy]
    · by_cases hcy : c = y
      · simp [hcy]
      · exfalso
        obtain ⟨d, hd, hin⟩ := pathOk_prev_in h sOld tail y hr.1.2 c hct
        rw [hcp] at hd
        have hdOld : d = sOld := by
          have := hd.symm
          simpa using this
        subst hdOld
        rcases hin with hin | hin
        · exact hOldNotMem (hin ▸ List.mem_cons_self y tail)
        · exact hOldNotMem (List.mem_cons_of_mem y hin)
  · intro c hc hcn
    rw [hform_next c hc]
    by_cases hcL : c = L
    · simp [hcL]
    · exfalso
      have hcinit : c ∈ init := by
        have : c ∈ init ++ [L] := hconcat ▸ hc
        rcases List.mem_append.mp this with hm | hm
        · exact hm
        · exact absurd (List.mem_singleton.mp hm) hcL
      obtain ⟨d, hd, hin⟩ := pathOk_next_in h L init sOld hsplit.1 c hcinit
      rw [hcn] at hd
      have hdOld : d = sOld := by
        have := hd.symm
        simpa using this
      subst hdOld
      rcases hin with hin | hin
      · exact hOldNotMem (by rw [hconcat]; exact List.mem_append_left [L] hin)
      · refine hOldNotMem ?_
        rw [hconcat, hin]
        exact List.mem_append_right init (List.mem_singleton_self L)
  · intro c hc d hd hcn
    rw [hform_next c hc]
    by_cases hcL : c = L
    · subst hcL
      rw [hLnext] at hcn
      exact absurd (Option.some_injective _ hcn).symm hd
    · simp [hcL, hcn]
  · intro c hc d hd hcp
    rw [hform_prev c hc]
    by_cases hcy : c = y
    · subst hcy
      rw [hr.1.1.2] at hcp
      exact absurd (Option.some_injective _ hcp).symm hd
    · simp [hcy, hcp]

/-- A list with at least one member is not empty. -/
theorem rep_empty_false (h : Heap) (s c : Nat) (l : List Nat)
    (hr : rep h s (c :: l)) : empty h s = false := by
  cases hb : empty h s with
  | false => rfl
  | true => exact absurd ((rep_empty_iff h s _ hr).mp hb) (by simp)

/-- swap exchanges the memberships of two distinct disjoint lists, in
every combination of empty and non-empty. -/
theorem rep_swap (h : Heap) (sa sb : Nat) (xs ys : List Nat)
    (hra : rep h sa xs) (hrb : rep h sb ys) (hab : sa ≠ sb)
    (hdisj : ∀ c ∈ sa :: xs, c ∉ sb :: ys) :
    rep (swap h sa sb) sa ys ∧ rep (swap h sa sb) sb xs := by
  have hba : sb ≠ sa := Ne.symm hab
  have hsbxs : sb ∉ xs :=
    fun hm => hdisj sb (List.mem_cons_of_mem sa hm) (List.mem_cons_self sb ys)
  have hsays : sa ∉ ys :=
    fun hm => hdisj sa (List.mem_cons_self sa xs) (List.mem_cons_of_mem sb hm)
  have hxsys : ∀ c ∈ xs, c ∉ ys :=
    fun c hc hm => hdisj c (List.mem_cons_of_mem sa hc) (List.mem_cons_of_mem sb hm)
  have hsaxs : sa ∉ xs := (List.nodup_cons.mp hra.2).1
  have hsbys : sb ∉ ys := (List.nodup_cons.mp hrb.2).1
  cases xs with
  | nil =>
    cases ys with
    | nil =>
      have hea : empty h sa = true := (rep_empty_iff h sa [] hra).mpr rfl
      have heb : empty h sb = true := (rep_empty_iff h sb [] hrb).mpr rfl
      have hs : swap h sa sb = h := by simp [swap, hab, hea, heb]
      rw [hs]
      exact ⟨hra, hrb⟩
    | cons y ys' =>
      have hea : empty h sa = true := (rep_empty_iff h sa [] hra).mpr rfl
      have heb : empty h sb = false := rep_empty_false h sb y ys' hrb
      rcases List.eq_nil_or_concat (y :: ys') with hnil | ⟨inity, Ly, hys⟩
      · simp at hnil
      rw [List.concat_eq_append] at hys
      have hy : (h sb).next_ = some y := hrb.1.1.1
      have hrbc : rep h sb (inity ++ [Ly]) := hys ▸ hrb
      have hLy : (h sb).prev_ = some Ly := rep_sentinel_prev_last h sb Ly inity hrbc
      have hymem : y ∈ y :: ys' := List.mem_cons_self y ys'
      have hLymem : Ly ∈ y :: ys' := by
        rw [hys]; exact List.mem_append_right inity (List.mem_singleton_self Ly)
      have hysa : y ≠ sa := fun hEq => hsays (hEq ▸ hymem)
      have hsay : sa ≠ y := Ne.symm hysa
      have hLysa : Ly ≠ sa := fun hEq => hsays (hEq ▸ hLymem)
      have hsaLy : sa ≠ Ly := Ne.symm hLysa
      have hs : swap h sa sb =
          setNode (setNext (setPrev (setNode h sa ⟨some y, some Ly⟩) y (some sa))
            Ly (some sa)) sb ⟨some sb, some sb⟩ := by
        simp [swap, hab, hea, heb, hy, hLy, storePrev, storeNext, hsay]
      rw [hs]
      constructor
      · refine rep_transplant h _ sb sa y Ly ys' inity hrb hys
          (fun hm => hsays hm) ?_ ?_ ?_ ?_
        · simp [hy, hba, hab, hsaLy, hsay]
        · simp [hLy, hba, hab, hsaLy, hsay]
        · intro c hc
          have hcsb : c ≠ sb := fun hEq => hsbys (hEq ▸ hc)
          have hcsa : c ≠ sa := fun hEq => hsays (hEq ▸ hc)
          by_cases hcLy : c = Ly
          · subst hcLy
            simp [apply_ite list_node.next_, apply_ite list_node.prev_, setNode, setNext, setPrev, hcsb, hcsa]
          · by_cases hcy : c = y
            · subst hcy
              simp [apply_ite list_node.next_, apply_ite list_node.prev_, setNode, setNext, setPrev, hcsb, hcsa, hcLy]
            · simp [apply_ite list_node.next_, apply_ite list_node.prev_, setNode, setNext, setPrev, hcsb, hcsa, hcLy, hcy]
        · intro c hc
          have hcsb : c ≠ sb := fun hEq => hsbys (hEq ▸ hc)
          have hcsa : c ≠ sa := fun hEq => hsays (hEq ▸ hc)
          by_cases hcy : c = y
          · subst hcy
            simp [apply_ite list_node.next_, apply_ite list_node.prev_, setNode, setNext, setPrev, hcsb, hcsa]
          · by_cases hcLy : c = Ly
            · subst hcLy
              simp [apply_ite list_node.next_, apply_ite list_node.prev_, setNode, setNext, setPrev, hcsb, hcsa, hcy]
            · simp [apply_ite list_node.next_, apply_ite list_node.prev_, setNode, setNext, setPrev, hcsb, hcsa, hcLy, hcy]
      · exact ⟨⟨by simp, by simp⟩, by simp⟩
  | cons x xs' =>
    cases ys with
    | nil =>
      have hea : empty h sa = false := rep_empty_false h sa x xs' hra
      have heb : empty h sb = true := (rep_empty_iff h sb [] hrb).mpr rfl
      rcases List.eq_nil_or_concat (x :: xs') with hnil | ⟨initx, Lx, hxs⟩
      · simp at hnil
      rw [List.concat_eq_append] at hxs
      have hx : (h sa).next_ = some x := hra.1.1.1
      have hrac : rep h sa (initx ++ [Lx]) := hxs ▸ hra
      have hLx : (h sa).prev_ = some Lx := rep_sentinel_prev_last h sa Lx initx hrac
      have hxmem : x ∈ x :: xs' := List.mem_cons_self x xs'
      have hLxmem : Lx ∈ x :: xs' := by
        rw [hxs]; exact List.mem_append_right initx (List.mem_singleton_self Lx)
      have hxsb : x ≠ sb := fun hEq => hsbxs (hEq ▸ hxmem)
      have hsbx : sb ≠ x := Ne.symm hxsb
      have hLxsb : Lx ≠ sb := fun hEq => hsbxs (hEq ▸ hLxmem)
      have hsbLx : sb ≠ Lx := Ne.symm hLxsb
      have hs : swap h sa sb =
          setNode (setNext (setPrev (setNode h sb ⟨some x, some Lx⟩) x (some sb))
            Lx (some sb)) sa ⟨some sa, some sa⟩ := by
        simp [swap, hab, hea, heb, hx, hLx, storePrev, storeNext, hsbx]
      rw [hs]
      constructor
      · exact ⟨⟨by simp, by simp⟩, by simp⟩
      · refine rep_transplant h _ sa sb x Lx xs' initx hra hxs
          (fun hm => hsbxs hm) ?_ ?_ ?_ ?_
        · simp [hx, hba, hab, hsbLx, hsbx]
        · simp [hLx, hba, hab, hsbLx, hsbx]
        · intro c hc
          have hcsb : c ≠ sb := fun hEq => hsbxs (hEq ▸ hc)
          have hcsa : c ≠ sa := fun hEq => hsaxs (hEq ▸ hc)
          by_cases hcLx : c = Lx
          · subst hcLx
            simp [apply_ite list_node.next_, apply_ite list_node.prev_, setNode, setNext, setPrev, hcsb, hcsa]
          · by_cases hcx : c = x
            · subst hcx
              simp [apply_ite list_node.next_, apply_ite list_node.prev_, setNode, setNext, setPrev, hcsb, hcsa, hcLx]
            · simp [apply_ite list_node.next_, apply_ite list_node.prev_, setNode, setNext, setPrev, hcsb, hcsa, hcLx, hcx]
        · intro c hc
          have hcsb : c ≠ sb := fun hEq => hsbxs (hEq ▸ hc)
          have hcsa : c ≠ sa := fun hEq => hsaxs (hEq ▸ hc)
          by_cases hcx : c = x
          · subst hcx
            simp [apply_ite list_node.next_, apply_ite list_node.prev_, setNode, setNext, setPrev, hcsb, hcsa]
          · by_cases hcLx : c = Lx
            · subst hcLx
              simp [apply_ite list_node.next_, apply_ite list_node.prev_, setNode, setNext, setPrev, hcsb, hcsa, hcx]
            · simp [apply_ite list_node.next_, apply_ite list_node.prev_, setNode, setNext, setPrev, hcsb, hcsa, hcLx, hcx]
    | cons y ys' =>
      have hea : empty h sa = false := rep_empty_false h sa x xs' hra
      have heb : empty h sb = false := rep_empty_false h sb y ys' hrb
      rcases List.eq_nil_or_concat (x :: xs') with hnil | ⟨initx, Lx, hxs⟩
      · simp at hnil
      rcases List.eq_nil_or_concat (y :: ys') with hnil | ⟨inity, Ly, hys⟩
      · simp at hnil
      rw [List.concat_eq_append] at hxs hys
      have hx : (h sa).next_ = some x := hra.1.1.1
      have hy : (h sb).next_ = some y := hrb.1.1.1
      have hrac : rep h sa (initx ++ [Lx]) := hxs ▸ hra
      have hrbc : rep h sb (inity ++ [Ly]) := hys ▸ hrb
      have hLx : (h sa).prev_ = some Lx := rep_sentinel_prev_last h sa Lx initx hrac
      have hLy : (h sb).prev_ = some Ly := rep_sentinel_prev_last h sb Ly inity hrbc
      have hxmem : x ∈ x :: xs' := List.mem_cons_self x xs'
      have hymem : y ∈ y :: ys' := List.mem_cons_self y ys'
      have hLxmem : Lx ∈ x :: xs' := by
        rw [hxs]; exact List.mem_append_right initx (List.mem_singleton_self Lx)
      have hLymem : Ly ∈ y :: ys' := by
        rw [hys]; exact List.mem_append_right inity (List.mem_singleton_self Ly)
      have hysa : y ≠ sa := fun hEq => hsays (hEq ▸ hymem)
      have hsay : sa ≠ y := Ne.symm hysa
      have hLysa : Ly ≠ sa := fun hEq => hsays (hEq ▸ hLymem)
      have hsaLy : sa ≠ Ly := Ne.symm hLysa
      have hxsb : x ≠ sb := fun hEq => hsbxs (hEq ▸ hxmem)
      have hsbx : sb ≠ x := Ne.symm hxsb
      have hLxsb : Lx ≠ sb := fun hEq => hsbxs (hEq ▸ hLxmem)
      have hsbLx : sb ≠ Lx := Ne.symm hLxsb
      have hysb : y ≠ sb := fun hEq => hsbys (hEq ▸ hymem)
      have hsby : sb ≠ y := Ne.symm hysb
      have hxsa : x ≠ sa := fun hEq => hsaxs (hEq ▸ hxmem)
      have hsax : sa ≠ x := Ne.symm hxsa
      have hLxsa : Lx ≠ sa := fun hEq => hsaxs (hEq ▸ hLxmem)
      have hsaLx : sa ≠ Lx := Ne.symm hLxsa
      have hLysb : Ly ≠ sb := fun hEq => hsbys (hEq ▸ hLymem)
      have hsbLy : sb ≠ Ly := Ne.symm hLysb
      have hs : swap h sa sb =
          setNext (setPrev (setNext (setPrev (setPrev (setPrev
            (setNext (setNext h sa (some y)) sb (some x))
            sa (some Ly)) sb (some Lx)) y (some sa)) Ly (some sa))
            x (some sb)) Lx (some sb) := by
        simp [swap, hab, hea, heb, hx, hy, hLx, hLy, storePrev, storeNext,
          hsay, hsbLy, hsbx, hsby, hab, hba]
      rw [hs]
      constructor
      · refine rep_transplant h _ sb sa y Ly ys' inity hrb hys
          (fun hm => hsays hm) ?_ ?_ ?_ ?_
        · simp [hy, hba, hab, hsaLy, hsay, hsaLx, hsax]
        · simp [hLy, hba, hab, hsaLy, hsay, hsaLx, hsax]
        · intro c hc
          have hcsb : c ≠ sb := fun hEq => hsbys (hEq ▸ hc)
          have hcsa : c ≠ sa := fun hEq => hsays (hEq ▸ hc)
          have hcLx : c ≠ Lx := fun hEq => hxsys Lx hLxmem (hEq ▸ hc)
          have hcx : c ≠ x := fun hEq => hxsys x hxmem (hEq ▸ hc)
          by_cases hcLy : c = Ly
          · subst hcLy
            simp [apply_ite list_node.next_, apply_ite list_node.prev_, setNode, setNext, setPrev, hcsb, hcsa, hcLx, hcx]
          · by_cases hcy : c = y
            · subst hcy
              simp [apply_ite list_node.next_, apply_ite list_node.prev_, setNode, setNext, setPrev, hcsb, hcsa, hcLx, hcx, hcLy]
            · simp [apply_ite list_node.next_, apply_ite list_node.prev_, setNode, setNext, setPrev, hcsb, hcsa, hcLx, hcx, hcLy, hcy]
        · intro c hc
          have hcsb : c ≠ sb := fun hEq => hsbys (hEq ▸ hc)
          have hcsa : c ≠ sa := fun hEq => hsays (hEq ▸ hc)
          have hcLx : c ≠ Lx := fun hEq => hxsys Lx hLxmem (hEq ▸ hc)
          have hcx : c ≠ x := fun hEq => hxsys x hxmem (hEq ▸ hc)
          by_cases hcy : c = y
          · subst hcy
            simp [apply_ite list_node.next_, apply_ite list_node.prev_, setNode, setNext, setPrev, hcsb, hcsa, hcLx, hcx]
          · by_cases hcLy : c = Ly
            · subst hcLy
              simp [apply_ite list_node.next_, apply_ite list_node.prev_, setNode, setNext, setPrev, hcsb, hcsa, hcLx, hcx, hcy]
            · simp [apply_ite list_node.next_, apply_ite list_node.prev_, setNode, setNext, setPrev, hcsb, hcsa, hcLx, hcx, hcLy, hcy]
      · refine rep_transplant h _ sa sb x Lx xs' initx hra hxs
          (fun hm => hsbxs hm) ?_ ?_ ?_ ?_
        · simp [hx, hba, hab, hsbLy, hsby, hsbLx, hsbx]
        · simp [hLx, hba, hab, hsbLy, hsby, hsbLx, hsbx]
        · intro c hc
          have hcsb : c ≠ sb := fun hEq => hsbxs (hEq ▸ hc)
          have hcsa : c ≠ sa := fun hEq => hsaxs (hEq ▸ hc)
          have hcLy : c ≠ Ly := fun hEq => hxsys c hc (hEq ▸ hLymem)
          have hcy : c ≠ y := fun hEq => hxsys c hc (hEq ▸ hymem)
          by_cases hcLx : c = Lx
          · subst hcLx
            simp [apply_ite list_node.next_, apply_ite list_node.prev_, setNode, setNext, setPrev, hcsb, hcsa, hcLy, hcy]
          · by_cases hcx : c = x
            · subst hcx
              simp [apply_ite list_node.next_, apply_ite list_node.prev_, setNode, setNext, setPrev, hcsb, hcsa, hcLy, hcy, hcLx]
            · simp [apply_ite list_node.next_, apply_ite list_node.prev_, setNode, setNext, setPrev, hcsb, hcsa, hcLy, hcy, hcLx, hcx]
        · intro c hc
          have hcsb : c ≠ sb := fun hEq => hsbxs (hEq ▸ hc)
          have hcsa : c ≠ sa := fun hEq => hsaxs (hEq ▸ hc)
          have hcLy : c ≠ Ly := fun hEq => hxsys c hc (hEq ▸ hLymem)
          have hcy : c ≠ y := fun hEq => hxsys c hc (hEq ▸ hymem)
          by_cases hcx : c = x
          · subst hcx
            simp [apply_ite list_node.next_, apply_ite list_node.prev_, setNode, setNext, setPrev, hcsb, hcsa, hcLy, hcy]
          · by_cases hcLx : c = Lx
            · subst hcLx
              simp [apply_ite list_node.next_, apply_ite list_node.prev_, setNode, setNext, setPrev, hcsb, hcsa, hcLy, hcy, hcx]
            · simp [apply_ite list_node.next_, apply_ite list_node.prev_, setNode, setNext, setPrev, hcsb, hcsa, hcLy, hcy, hcLx, hcx]

/-! ### unlink: pointwise description, idempotence, no-op on unlinked -/

/-- On a linked node with pairwise-distinct neighbors, unlink patches
exactly the two neighbors and clears the node itself; every other address
is untouched. -/
theorem unlink_fields (h : Heap) (a n p : Nat)
    (hn : (h a).next_ = some n) (hp : (h a).prev_ = some p)
    (hna : n ≠ a) (hpa : p ≠ a) (hnp : n ≠ p) :
    (unlink h a) a = ⟨none, none⟩ ∧
    (unlink h a) p = { h p with next_ := some n } ∧
    (unlink h a) n = { h n with prev_ := some p } ∧
    ∀ c, c ≠ a → c ≠ p → c ≠ n → (unlink h a) c = h c := by
  rw [unlink_linked h a n p hn hp hna]
  refine ⟨by simp, ?_, ?_, ?_⟩
  · simp [setNode, setNext, setPrev, hpa, Ne.symm hnp]
  · simp [setNode, setNext, setPrev, hna, hnp]
  · intro c hca hcp hcn
    simp [setNode, setNext, setPrev, hca, hcp, hcn]

/-- After unlink the node itself is always unlinked. -/
theorem unlink_self_unlinked (h : Heap) (a : Nat) :
    is_linked ((unlink h a) a) = false := by
  simp only [unlink]
  split
  · simp [is_linked]
  · next hfalse => simpa using hfalse

/-- unlink is idempotent. -/
theorem unlink_unlink (h : Heap) (a : Nat) :
    unlink (unlink h a) a = unlink h a :=
  unlink_not_linked (unlink h a) a (unlink_self_unlinked h a)

/-- An unlinked node holds two null references. -/
theorem unlinked_node_eq (nd : list_node) (h : is_linked nd = false) :
    nd = ⟨none, none⟩ := by
  cases nd with
  | mk n p =>
    cases n with
    | none =>
      cases p with
      | none => rfl
      | some q => exact absurd h (by simp [is_linked])
    | some q => exact absurd h (by simp [is_linked])

/-! ### push_back then erase restores the heap exactly -/

theorem push_back_erase_obj_id (h : Heap) (s a : Nat) (xs : List Nat)
    (hr : rep h s xs) (ha : is_linked (h a) = false) :
    erase_obj (push_back h s a) a = h := by
  obtain ⟨has, hax⟩ := rep_unlinked_fresh h s xs a hr ha
  have hsa : s ≠ a := Ne.symm has
  have hanode : h a = ⟨none, none⟩ := unlinked_node_eq (h a) ha
  -- the old tail t: either the sentinel itself or the last member
  have htail : ∃ t, (h s).prev_ = some t ∧ (h t).next_ = some s ∧ t ≠ a ∧
      (t = s → h s = ⟨some s, some s⟩) := by
    rcases List.eq_nil_or_concat xs with rfl | ⟨init, t, hxs⟩
    · refine ⟨s, hr.1.2, hr.1.1, hsa, fun _ => ?_⟩
      have he : h s = ⟨(h s).next_, (h s).prev_⟩ := rfl
      rw [he, hr.1.1, hr.1.2]
    · rw [List.concat_eq_append] at hxs
      subst hxs
      have htmem : t ∈ init ++ [t] := List.mem_append_right init (List.mem_singleton_self t)
      have hta : t ≠ a := fun hEq => hax (hEq ▸ htmem)
      have hts : t ≠ s := fun hEq => (List.nodup_cons.mp hr.2).1 (hEq ▸ htmem)
      have hsplit := (pathOk_append h s t s init []).mp hr.1
      exact ⟨t, rep_sentinel_prev_last h s t init hr, hsplit.2.1, hta,
        fun hEq => absurd hEq hts⟩
  obtain ⟨t, hprev, htnext, hta, htss⟩ := htail
  have hat : a ≠ t := Ne.symm hta
  have hpb : push_back h s a =
      setPrev (setNext (setNode h a ⟨some s, some t⟩) t (some a)) s (some a) := by
    simp [push_back, storeNext, hprev, hsa]
  have hHa_next : ((push_back h s a) a).next_ = some s := by
    rw [hpb]
    simp [setNode, setNext, setPrev, hat, has]
  have hHa_prev : ((push_back h s a) a).prev_ = some t := by
    rw [hpb]
    simp [setNode, setNext, setPrev, hat, has]
  have hun : erase_obj (push_back h s a) a =
      setNode (setNext (setPrev (push_back h s a) s (some t)) t (some s))
        a ⟨none, none⟩ :=
    unlink_linked (push_back h s a) a s t hHa_next hHa_prev hsa
  rw [hun, hpb]
  funext c
  rcases eq_or_ne c a with hca | hca
  · rw [hca]
    simp [setNode, hanode]
  · rcases eq_or_ne c t with hct | hct
    · rcases eq_or_ne t s with hts2 | hts2
      · rw [hct, hts2]
        have he : (⟨some s, some s⟩ : list_node) = h s := (htss hts2).symm
        simpa [setNode, setNext, setPrev, hsa, Ne.symm hsa] using he
      · rw [hct]
        have he : h t = ⟨(h t).next_, (h t).prev_⟩ := rfl
        rw [htnext] at he
        simpa [setNode, setNext, setPrev, hta, hat, hts2, Ne.symm hts2]
          using he.symm
    · rcases eq_or_ne c s with hcs | hcs
      · have hst : s ≠ t := fun hEq => hct (hcs.trans hEq)
        rw [hcs]
        have he : h s = ⟨(h s).next_, (h s).prev_⟩ := rfl
        rw [hprev] at he
        simpa [setNode, setNext, setPrev, hsa, hst, Ne.symm hst] using he.symm
      · simp [setNode, setNext, setPrev, hca, hcs, hct]

/-! ### Iterator wrap-around facts -/

/-- Incrementing the end iterator lands on begin. -/
theorem iterInc_end (h : Heap) (s : Nat) :
    iterInc h (end_ s) = begin h s := rfl

/-- Decrementing the begin iterator lands on end. -/
theorem iterDec_begin (h : Heap) (s : Nat) (xs : List Nat) (hr : rep h s xs) :
    iterDec h (begin h s) = end_ s := by
  cases xs with
  | nil =>
    have h1 : (h s).next_ = some s := hr.1.1
    have h2 : (h s).prev_ = some s := hr.1.2
    simp [begin, iterDec, end_, h1, h2]
  | cons x xs' =>
    have h1 : (h s).next_ = some x := hr.1.1.1
    have h2 : (h x).prev_ = some s := hr.1.1.2
    simp [begin, iterDec, end_, h1, h2]

/-- Every position of the circle (the sentinel and every member) has
non-null next_ and prev_, so increment and decrement never yield a null
iterator. -/
theorem iter_no_null (h : Heap) (s : Nat) (xs : List Nat) (hr : rep h s xs)
    (c : Nat) (hc : c ∈ s :: xs) :
    iterInc h (some c) ≠ none ∧ iterDec h (some c) ≠ none := by
  rcases List.mem_cons.mp hc with hc | hc
  · rw [hc]
    cases xs with
    | nil =>
      simp [iterInc, iterDec, hr.1.1, hr.1.2]
    | cons x xs' =>
      rcases List.eq_nil_or_concat (x :: xs') with hnil | ⟨init, l, hxs⟩
      · simp at hnil
      · rw [List.concat_eq_append] at hxs
        have hp : (h s).prev_ = some l := rep_sentinel_prev_last h s l init (hxs ▸ hr)
        simp [iterInc, iterDec, hr.1.1.1, hp]
  · have h1 := pathOk_mem_next h s c xs s hr.1 hc
    have h2 := pathOk_mem_prev h s c xs s hr.1 hc
    constructor
    · simp only [iterInc]
      intro hEq
      rw [hEq] at h1
      simp at h1
    · simp only [iterDec]
      intro hEq
      rw [hEq] at h2
      simp at h2

/-! ### Frame reasoning: operations on one list leave a disjoint list
untouched -/

/-- The chain invariant only depends on the nodes of the ring. -/
theorem rep_frame (h h2 : Heap) (s : Nat) (xs : List Nat)
    (hr : rep h s xs) (hag : ∀ c ∈ s :: xs, h2 c = h c) : rep h2 s xs := by
  have hs : h2 s = h s := hag s (List.mem_cons_self s xs)
  refine ⟨pathOk_frame h h2 s s xs ?_ ?_ ?_ hr.1, hr.2⟩
  · intro c hc
    exact hag c (List.mem_cons_of_mem s hc)
  · rw [hs]
  · rw [hs]

/-- pop_front only writes inside its own ring. -/
theorem pop_front_frame (h : Heap) (sd y : Nat) (ys' : List Nat)
    (hr : rep h sd (y :: ys')) (c : Nat) (hc : c ∉ sd :: y :: ys') :
    (pop_front h sd) c = h c := by
  have hy : (h sd).next_ = some y := hr.1.1.1
  have hpf : pop_front h sd = unlink h y := by simp [pop_front, hy]
  rw [hpf]
  have hprev : (h y).prev_ = some sd := hr.1.1.2
  have hsdy : sd ≠ y := by
    intro hEq
    exact (List.nodup_cons.mp hr.2).1 (hEq ▸ List.mem_cons_self y ys')
  have hcy : c ≠ y := fun hEq => hc (by
    rw [hEq]; exact List.mem_cons_of_mem sd (List.mem_cons_self y ys'))
  have hcsd : c ≠ sd := fun hEq => hc (by
    rw [hEq]; exact List.mem_cons_self sd (y :: ys'))
  cases ys' with
  | nil =>
    have hn : (h y).next_ = some sd := hr.1.2.1
    rw [unlink_linked h y sd sd hn hprev hsdy]
    simp [setNode, setNext, setPrev, hcy, hcsd]
  | cons c₂ ys'' =>
    have hn : (h y).next_ = some c₂ := hr.1.2.1.1
    have hc₂ : c ≠ c₂ := fun hEq => hc (by
      rw [hEq]
      exact List.mem_cons_of_mem sd (List.mem_cons_of_mem y (List.mem_cons_self c₂ ys'')))
    have hc₂y : c₂ ≠ y := by
      intro hEq
      have := (List.nodup_cons.mp (List.nodup_cons.mp hr.2).2).1
      exact this (hEq ▸ List.mem_cons_self c₂ ys'')
    rw [unlink_linked h y c₂ sd hn hprev hc₂y]
    simp [setNode, setNext, setPrev, hcy, hcsd, hc₂]

/-- clear leaves every disjoint list untouched while emptying its own. -/
theorem clear_frame (sd s2 : Nat) :
    ∀ (fuel : Nat) (h : Heap) (ys xs : List Nat), rep h sd ys → rep h s2 xs →
      (∀ c ∈ sd :: ys, c ∉ s2 :: xs) → rep (clear sd fuel h) s2 xs
  | 0, h, ys, xs, _, hr2, _ => hr2
  | fuel + 1, h, ys, xs, hr, hr2, hdisj => by
    cases ys with
    | nil =>
      have he : empty h sd = true := (rep_empty_iff h sd [] hr).mpr rfl
      simpa [clear, he] using hr2
    | cons y ys' =>
      have he : empty h sd = false := rep_empty_false h sd y ys' hr
      have hrpop := rep_pop_front h sd y ys' hr
      have hr2pop : rep (pop_front h sd) s2 xs := by
        refine rep_frame h _ s2 xs hr2 ?_
        intro c hc
        refine pop_front_frame h sd y ys' hr c ?_
        intro hm
        exact hdisj c hm hc
      have hdisj2 : ∀ c ∈ sd :: ys', c ∉ s2 :: xs := by
        intro c hc
        rcases List.mem_cons.mp hc with hc | hc
        · exact hdisj c (hc ▸ List.mem_cons_self sd (y :: ys'))
        · exact hdisj c (List.mem_cons_of_mem sd (List.mem_cons_of_mem y hc))
      simpa [clear, he] using clear_frame sd s2 fuel (pop_front h sd) ys' xs hrpop hr2pop hdisj2

/-! ### List move construction and move assignment -/

/-- The freshly built sentinel makes an empty list, leaving every node
other than the sentinel address untouched. -/
theorem rep_init (h : Heap) (s : Nat) : rep (intrusive_list_init h s) s [] := by
  refine ⟨⟨?_, ?_⟩, by simp⟩ <;> simp [intrusive_list_init]

/-- Move construction of a list: the destination takes over exactly the
source membership and the source ends empty. -/
theorem rep_list_move (h : Heap) (dst src : Nat) (xs : List Nat)
    (hr : rep h src xs) (hds : dst ≠ src) (hdx : dst ∉ xs) :
    rep (intrusive_list_move h dst src) dst xs ∧
    rep (intrusive_list_move h dst src) src [] := by
  have h1 := rep_init h dst
  have h2 : rep (intrusive_list_init h dst) src xs := by
    refine rep_frame h _ src xs hr ?_
    intro c hc
    have hcd : c ≠ dst := by
      intro hEq
      rcases List.mem_cons.mp hc with hc | hc
      · exact hds (hEq ▸ hc ▸ rfl)
      · exact hdx (hEq ▸ hc)
    simp [intrusive_list_init, setNode, hcd]
  refine rep_swap (intrusive_list_init h dst) dst src [] xs h1 h2 hds ?_
  intro c hc hc2
  rcases List.mem_cons.mp hc with hc | hc
  · rcases List.mem_cons.mp hc2 with hc2 | hc2
    · exact hds (hc ▸ hc2)
    · exact hdx (hc ▸ hc2)
  · simp at hc

/-- Move assignment of a list: the destination membership is cleared,
then the destination takes over the source membership. -/
theorem rep_list_move_assign (h : Heap) (dst src : Nat) (xs ys : List Nat)
    (fuel : Nat) (hfuel : ys.length ≤ fuel)
    (hrd : rep h dst ys) (hrs : rep h src xs) (hds : dst ≠ src)
    (hdisj : ∀ c ∈ dst :: ys, c ∉ src :: xs) :
    rep (intrusive_list_move_assign h dst src fuel) dst xs ∧
    rep (intrusive_list_move_assign h dst src fuel) src [] := by
  have hcd : rep (clear dst fuel h) dst [] := rep_clear dst fuel h ys hrd hfuel
  have hcs : rep (clear dst fuel h) src xs := clear_frame dst src fuel h ys xs hrd hrs hdisj
  have hmv : intrusive_list_move_assign h dst src fuel = swap (clear dst fuel h) dst src := by
    simp [intrusive_list_move_assign, hds]
  rw [hmv]
  refine rep_swap (clear dst fuel h) dst src [] xs hcd hcs hds ?_
  intro c hc hc2
  rcases List.mem_cons.mp hc with hc | hc
  · exact hdisj c (hc ▸ List.mem_cons_self dst ys) hc2
  · simp at hc

/-! ### Moving a list_node: the destination takes over the chain
position of the source -/

theorem setNode_setNode (h : Heap) (a : Nat) (A B : list_node) :
    setNode (setNode h a A) a B = setNode h a B := by
  funext c
  by_cases hc : c = a <;> simp [setNode, hc]

/-- Moving a linked node produces the same heap as unlinking the source
and splicing the destination back in before the old next neighbor. -/
theorem list_node_move_eq (h : Heap) (dst src n p : Nat)
    (hn : (h src).next_ = some n) (hp : (h src).prev_ = some p)
    (hns : n ≠ src) (hps : p ≠ src)
    (hdsrc : dst ≠ src) (hdn : dst ≠ n) (hdp : dst ≠ p) :
    list_node_move h dst src = insert (unlink h src) (some n) dst := by
  have hsd : src ≠ dst := Ne.symm hdsrc
  have hlinked : is_linked (h src) = true := by simp [is_linked, hn]
  have hL : list_node_move h dst src =
      setNode (setNext (setPrev (setNode h dst ⟨some n, some p⟩) n (some dst))
        p (some dst)) src ⟨none, none⟩ := by
    simp [list_node_move, setNode_setNode, hsd, hlinked, hn, hp,
      storePrev, storeNext, hdn, setNode, setNext, setPrev]
  have hU : unlink h src =
      setNode (setNext (setPrev h n (some p)) p (some n)) src ⟨none, none⟩ :=
    unlink_linked h src n p hn hp hns
  have hUn_prev : ((unlink h src) n).prev_ = some p := by
    rw [hU]
    simp [setNode, setNext, setPrev, hns, apply_ite list_node.prev_]
  have hR : insert (unlink h src) (some n) dst =
      setPrev (setNext (setNode (unlink h src) dst ⟨some n, some p⟩)
        p (some dst)) n (some dst) := by
    simp [insert, storeNext, hUn_prev, hdn, Ne.symm hdn]
  rw [hL, hR, hU]
  funext c
  by_cases hcd : c = dst
  · rw [hcd]
    simp [setNode, setNext, setPrev, hdsrc, hdn, hdp]
  · by_cases hcs : c = src
    · rw [hcs]
      simp [setNode, setNext, setPrev, hsd, hns, hps, Ne.symm hns, Ne.symm hps]
    · by_cases hcn : c = n
      · by_cases hnp2 : n = p
        · rw [hcn, ← hnp2]
          simp [setNode, setNext, setPrev, hns, Ne.symm hdn, ← hnp2]
        · rw [hcn]
          simp [setNode, setNext, setPrev, hns, hnp2, Ne.symm hdn]
      · by_cases hcp : c = p
        · have hpn : ¬ p = n := by rw [← hcp]; exact hcn
          rw [hcp]
          simp [setNode, setNext, setPrev, hps, hpn, Ne.symm hdp]
        · simp [setNode, setNext, setPrev, hcd, hcs, hcn, hcp]

/-- After moving from a linked source, the source node is cleared. -/
theorem list_node_move_src_cleared (h : Heap) (dst src : Nat)
    (hlinked : is_linked (h src) = true) :
    (list_node_move h dst src) src = ⟨none, none⟩ := by
  by_cases hdsrc : dst = src
  · rw [hdsrc]
    simp [list_node_move, setNode, is_linked]
  · have hsd : src ≠ dst := fun hEq => hdsrc hEq.symm
    simp [list_node_move, hsd, hlinked, setNode, storePrev, storeNext]

/-- Moving from an unlinked source leaves the destination unlinked. -/
theorem list_node_move_unlinked_src (h : Heap) (dst src : Nat)
    (hsrc : is_linked (h src) = false) :
    (list_node_move h dst src) dst = ⟨none, none⟩ := by
  by_cases hdsrc : dst = src
  · rw [hdsrc]
    simp [list_node_move, setNode, is_linked]
  · have hsd : src ≠ dst := fun hEq => hdsrc hEq.symm
    have hg : is_linked ((setNode h dst ⟨none, none⟩) src) = false := by
      rw [setNode_ne h dst ⟨none, none⟩ src hsd]
      exact hsrc
    simp only [list_node_move, hg]
    simp [setNode]

/-- Move assignment on distinct nodes is exactly: vacate the destination
with unlink, then run the move transfer. -/
theorem list_node_move_assign_eq (h : Heap) (dst src : Nat) (hds : dst ≠ src) :
    list_node_move_assign h dst src = list_node_move (unlink h dst) dst src := by
  have h0eq : setNode (unlink h dst) dst ⟨none, none⟩ = unlink h dst := by
    funext c
    by_cases hc : c = dst
    · rw [hc]
      simp only [setNode_apply, if_pos rfl]
      exact (unlinked_node_eq _ (unlink_self_unlinked h dst)).symm
    · simp [setNode, hc]
  simp only [list_node_move_assign, list_node_move, if_neg hds, h0eq]

/-- Self move assignment of a node is a no-op. -/
theorem list_node_move_assign_self (h : Heap) (a : Nat) :
    list_node_move_assign h a a = h := by
  simp [list_node_move_assign]

/-- Moving a chain member transfers its position to a fresh destination:
the chain is unchanged except that the destination stands where the
source stood, and the source ends unlinked. -/
theorem rep_node_move (h : Heap) (s dst src : Nat) (l r : List Nat)
    (hr : rep h s (l ++ src :: r)) (hd : is_linked (h dst) = false) :
    rep (list_node_move h dst src) s (l ++ dst :: r) ∧
    (list_node_move h dst src) src = ⟨none, none⟩ := by
  obtain ⟨hds, hdx⟩ := rep_unlinked_fresh h s _ dst hr hd
  have hsrcmem : src ∈ l ++ src :: r := List.mem_append_right l (List.mem_cons_self src r)
  have hdsrc : dst ≠ src := fun hEq => hdx (hEq ▸ hsrcmem)
  have hlinked : is_linked (h src) = true := rep_mem_is_linked h s _ src hr hsrcmem
  have hnd := hr.2
  have hsnot : s ∉ l ++ src :: r := (List.nodup_cons.mp hnd).1
  have hnd2 : (l ++ src :: r).Nodup := (List.nodup_cons.mp hnd).2
  have hdisj : l.Disjoint (src :: r) := List.disjoint_of_nodup_append hnd2
  have hsplit := (pathOk_append h s src s l r).mp hr.1
  have hssrc : s ≠ src := fun hEq => hsnot (hEq ▸ hsrcmem)
  -- the prev neighbor p
  have hpfact : ∃ p, (h src).prev_ = some p ∧ p ≠ src ∧ dst ≠ p := by
    rcases List.eq_nil_or_concat l with rfl | ⟨init, q, hl'⟩
    · exact ⟨s, hsplit.1.2, hssrc, hds⟩
    · rw [List.concat_eq_append] at hl'
      subst hl'
      have hqmem : q ∈ init ++ [q] := List.mem_append_right init (List.mem_singleton_self q)
      have hsplitl := (pathOk_append h s q src init []).mp hsplit.1
      refine ⟨q, hsplitl.2.2, ?_, ?_⟩
      · exact fun hEq => hdisj (hEq ▸ hqmem) (List.mem_cons_self src r)
      · exact fun hEq => hdx (by
          rw [hEq]; exact List.mem_append_left (src :: r) hqmem)
  obtain ⟨p, hp, hps, hdp⟩ := hpfact
  -- the next neighbor n, together with the shape of r
  cases r with
  | nil =>
    have hn : (h src).next_ = some s := hsplit.2.1
    have hmv := list_node_move_eq h dst src s p hn hp hssrc hps hdsrc hds hdp
    rw [hmv]
    constructor
    · rw [show insert (unlink h src) (some s) dst = push_back (unlink h src) s dst from rfl]
      have hu : rep (unlink h src) s l := by
        have := rep_erase_split h s src l [] hr
        simpa using this
      have := rep_push_back (unlink h src) s dst l hu hds
        (fun hm => hdx (List.mem_append_left (src :: []) hm))
      simpa using this
    · rw [← hmv]
      exact list_node_move_src_cleared h dst src hlinked
  | cons c r' =>
    have hn : (h src).next_ = some c := hsplit.2.1.1
    have hcs2 : c ≠ src := by
      intro hEq
      have := (List.nodup_cons.mp (hnd2.of_append_right)).1
      exact this (hEq ▸ List.mem_cons_self c r')
    have hmv := list_node_move_eq h dst src c p hn hp hcs2 hps hdsrc
      (fun hEq => hdx (by
        rw [hEq]
        exact List.mem_append_right l (List.mem_cons_of_mem src (List.mem_cons_self c r'))))
      hdp
    rw [hmv]
    constructor
    · have hu : rep (unlink h src) s (l ++ c :: r') := rep_erase_split h s src l (c :: r') hr
      refine rep_insert_split (unlink h src) s c dst l r' hu hds ?_
      intro hm
      rcases List.mem_append.mp hm with hm | hm
      · exact hdx (List.mem_append_left _ hm)
      · exact hdx (List.mem_append_right l (List.mem_cons_of_mem src hm))
    · rw [← hmv]
      exact list_node_move_src_cleared h dst src hlinked

/-! ### Sequences of container operations against the abstract list -/

/-- One operation run under its precondition transforms the chain exactly
as the abstract list transformation says. -/
theorem rep_applyOp (s : Nat) (h : Heap) (xs : List Nat) (op : Op)
    (hr : rep h s xs) (hpre : preOk s h xs op) :
    rep (applyOp s h op) s (absApply s xs op) := by
  cases op with
  | pushFront a =>
    obtain ⟨has, hax⟩ := rep_unlinked_fresh h s xs a hr hpre
    exact rep_push_front h s a xs hr has hax
  | pushBack a =>
    obtain ⟨has, hax⟩ := rep_unlinked_fresh h s xs a hr hpre
    exact rep_push_back h s a xs hr has hax
  | insertBefore p a =>
    obtain ⟨ha, hpos⟩ := hpre
    rcases hpos with hps | hpmem
    · obtain ⟨has, hax⟩ := rep_unlinked_fresh h s xs a hr ha
      have h1 : applyOp s h (Op.insertBefore p a) = push_back h s a := by
        simp [applyOp, hps]
        rfl
      have h2 : absApply s xs (Op.insertBefore p a) = xs ++ [a] := by
        simp [absApply, hps]
      rw [h1, h2]
      exact rep_push_back h s a xs hr has hax
    · have hpns : p ≠ s := by
        intro hEq
        exact (List.nodup_cons.mp hr.2).1 (hEq ▸ hpmem)
      have h2 : absApply s xs (Op.insertBefore p a) = absInsert xs p a := by
        simp [absApply, hpns]
      rw [h2]
      exact rep_insert_mem h s p a xs hr hpmem ha
  | eraseAt p =>
    exact rep_erase_mem h s p xs hr hpre

/-- A whole sequence of operations, each respecting its precondition,
transforms the chain exactly as the abstract transformations say. -/
theorem rep_applyOps (s : Nat) :
    ∀ (ops : List Op) (h : Heap) (xs : List Nat), rep h s xs →
      opsOk s ops h xs → rep (applyOps s ops h) s (absApplys s ops xs)
  | [], h, xs, hr, _ => hr
  | op :: rest, h, xs, hr, hok =>
    rep_applyOps s rest (applyOp s h op) (absApply s xs op)
      (rep_applyOp s h xs op hr hok.1) hok.2

/-! ### The global link invariant: both references null or both non-null,
together with the pointer coherence that makes it preservable -/

/-- Under nodeOk, is_linked is decided by the next_ reference alone, and
likewise by the prev_ reference alone. -/
theorem nodeOk_is_linked (nd : list_node) (hok : nodeOk nd) :
    is_linked nd = nd.next_.isSome ∧ is_linked nd = nd.prev_.isSome := by
  unfold nodeOk at hok
  unfold is_linked
  rw [hok]
  simp

/-- A linked node of a heapOk heap has both references present. -/
theorem nodeOk_linked_fields (nd : list_node) (hok : nodeOk nd)
    (hl : is_linked nd = true) : ∃ n p, nd.next_ = some n ∧ nd.prev_ = some p := by
  unfold nodeOk at hok
  unfold is_linked at hl
  cases hn : nd.next_ with
  | none =>
    rw [hn] at hok hl
    cases hp : nd.prev_ with
    | none => rw [hp] at hl; simp at hl
    | some q => rw [hp] at hok; simp at hok
  | some n =>
    cases hp : nd.prev_ with
    | none => rw [hn, hp] at hok; simp at hok
    | some q => exact ⟨n, q, rfl, rfl⟩

/-- An unlinked node of a wf heap has no other node pointing at it. -/
theorem wf_no_edge_into_unlinked (h : Heap) (a : Nat) (hwf : wf h)
    (ha : is_linked (h a) = false) :
    (∀ x, (h x).next_ ≠ some a) ∧ (∀ x, (h x).prev_ ≠ some a) := by
  have hnode := unlinked_node_eq (h a) ha
  constructor
  · intro x hx
    have := hwf.2.1 x a hx
    rw [hnode] at this
    cases this
  · intro x hx
    have := hwf.2.2 x a hx
    rw [hnode] at this
    cases this

/-- insert before a linked position is a splice between the position and
its prev neighbor. -/
theorem insert_eq_spliceHeap (h : Heap) (p a q : Nat)
    (hq : (h p).prev_ = some q) (hap : p ≠ a) :
    insert h (some p) a = spliceHeap h a q p := by
  simp [insert, spliceHeap, storeNext, hq, hap, setNode, setNext, setPrev]

/-- push_back is a splice between the old tail and the sentinel. -/
theorem push_back_eq_spliceHeap (h : Heap) (s a t : Nat)
    (ht : (h s).prev_ = some t) (has : s ≠ a) :
    push_back h s a = spliceHeap h a t s :=
  insert_eq_spliceHeap h s a t ht has

/-- Two nodes with the same fields are equal. -/
theorem list_node_ext (A B : list_node) (hn : A.next_ = B.next_)
    (hp : A.prev_ = B.prev_) : A = B := by
  cases A
  cases B
  cases hn
  cases hp
  rfl

/-- Writes to the next_ field of one node and the prev_ field of another
commute. -/
theorem setNext_setPrev_comm (h : Heap) (b c : Nat) (v w : Option Nat) :
    setNext (setPrev h c v) b w = setPrev (setNext h b w) c v := by
  funext x
  refine list_node_ext _ _ ?_ ?_ <;> simp

/-- push_front is a splice between the sentinel and the old head. -/
theorem push_front_eq_spliceHeap (h : Heap) (s a f : Nat)
    (hf : (h s).next_ = some f) (has : s ≠ a) :
    push_front h s a = spliceHeap h a s f := by
  simp only [push_front, spliceHeap, storePrev]
  rw [show ((setNode h a ⟨(h s).next_, some s⟩) s).next_ = some f from by
    simp [setNode, has, hf]]
  rw [show (setNode h a ⟨(h s).next_, some s⟩) = setNode h a ⟨some f, some s⟩ from by
    rw [hf]]
  exact setNext_setPrev_comm (setNode h a ⟨some f, some s⟩) s f (some a) (some a)

/-- Splicing a fresh node between an adjacent pair preserves the global
invariant. -/
theorem wf_spliceHeap (h : Heap) (a q p : Nat) (hwf : wf h)
    (hq : (h q).next_ = some p) (hp : (h p).prev_ = some q)
    (ha : is_linked (h a) = false) :
    wf (spliceHeap h a q p) := by
  have hap : a ≠ p := by
    intro hEq
    rw [← hEq] at hp
    have := nodeOk_is_linked (h a) (hwf.1 a)
    rw [ha] at this
    rw [hp] at this
    simp at this
  have haq : a ≠ q := by
    intro hEq
    rw [← hEq] at hq
    have := nodeOk_is_linked (h a) (hwf.1 a)
    rw [ha] at this
    rw [hq] at this
    simp at this
  obtain ⟨hnoNext, hnoPrev⟩ := wf_no_edge_into_unlinked h a hwf ha
  have hNnext : ∀ x, ((spliceHeap h a q p) x).next_ =
      if x = q then some a else if x = a then some p else (h x).next_ := by
    intro x
    simp only [spliceHeap, setPrev_next, setNext_next, setNode_apply]
    by_cases hxq : x = q
    · simp [hxq]
    · by_cases hxa : x = a <;> simp [hxq, hxa]
  have hNprev : ∀ x, ((spliceHeap h a q p) x).prev_ =
      if x = p then some a else if x = a then some q else (h x).prev_ := by
    intro x
    simp only [spliceHeap, setPrev_prev, setNext_prev, setNode_apply]
    by_cases hxp : x = p
    · simp [hxp]
    · by_cases hxa : x = a <;> simp [hxp, hxa]
  have hqok : (h q).prev_.isSome = true := by
    have hn := hwf.1 q
    unfold nodeOk at hn
    rw [hq] at hn
    simp only [Option.isSome_some] at hn
    exact hn.symm
  have hpok : (h p).next_.isSome = true := by
    have hn := hwf.1 p
    unfold nodeOk at hn
    rw [hp] at hn
    simp only [Option.isSome_some] at hn
    exact hn
  refine ⟨?_, ?_, ?_⟩
  · intro x
    unfold nodeOk
    rw [hNnext x, hNprev x]
    by_cases hxq : x = q
    · rw [if_pos hxq]
      by_cases hxp : x = p
      · rw [if_pos hxp]
      · by_cases hxa : x = a
        · exact absurd (hxa.symm.trans hxq) haq
        · rw [if_neg hxp, if_neg hxa, hxq]
          simp [hqok]
    · rw [if_neg hxq]
      by_cases hxp : x = p
      · by_cases hxa : x = a
        · exact absurd (hxa.symm.trans hxp) hap
        · rw [if_neg hxa, if_pos hxp, hxp]
          simp [hpok]
      · by_cases hxa : x = a
        · rw [if_pos hxa, if_neg hxp, if_pos hxa]
          rfl
        · rw [if_neg hxa, if_neg hxp, if_neg hxa]
          exact hwf.1 x
  · intro x b hx
    rw [hNnext x] at hx
    rw [hNprev b]
    by_cases hxq : x = q
    · rw [if_pos hxq] at hx
      have hba : b = a := by simpa using hx.symm
      rw [hba]
      simp [hap, hxq]
    · rw [if_neg hxq] at hx
      by_cases hxa : x = a
      · rw [if_pos hxa] at hx
        have hbp : b = p := by simpa using hx.symm
        rw [hbp, if_pos rfl, hxa]
      · rw [if_neg hxa] at hx
        have hold := hwf.2.1 x b hx
        have hbp : b ≠ p := by
          intro hEq
          rw [hEq] at hold
          rw [hp] at hold
          exact hxq (by simpa using hold.symm)
        have hba : b ≠ a := fun hEq => hnoNext x (hEq ▸ hx)
        rw [if_neg hbp, if_neg hba]
        exact hold
  · intro x b hx
    rw [hNprev x] at hx
    rw [hNnext b]
    by_cases hxp : x = p
    · rw [if_pos hxp] at hx
      have hba : b = a := by simpa using hx.symm
      rw [hba]
      simp [haq, hxp]
    · rw [if_neg hxp] at hx
      by_cases hxa : x = a
      · rw [if_pos hxa] at hx
        have hbq : b = q := by simpa using hx.symm
        rw [hbq, if_pos rfl, hxa]
      · rw [if_neg hxa] at hx
        have hold := hwf.2.2 x b hx
        have hbq : b ≠ q := by
          intro hEq
          rw [hEq] at hold
          rw [hq] at hold
          exact hxp (by simpa using hold.symm)
        have hba : b ≠ a := fun hEq => hnoPrev x (hEq ▸ hx)
        rw [if_neg hbq, if_neg hba]
        exact hold

/-- Clearing a node that no other node points at preserves the global
invariant. -/
theorem wf_clearNode (h : Heap) (a : Nat) (hwf : wf h)
    (honly : ∀ x, x ≠ a → (h x).next_ ≠ some a ∧ (h x).prev_ ≠ some a) :
    wf (setNode h a ⟨none, none⟩) := by
  refine ⟨?_, ?_, ?_⟩
  · intro x
    by_cases hxa : x = a
    · simp [setNode, hxa, nodeOk]
    · simp only [setNode_apply, if_neg hxa]
      exact hwf.1 x
  · intro x b hx
    by_cases hxa : x = a
    · rw [setNode_apply, if_pos hxa] at hx
      cases hx
    · rw [setNode_apply, if_neg hxa] at hx
      have hba : b ≠ a := fun hEq => (honly x hxa).1 (hEq ▸ hx)
      rw [setNode_apply, if_neg hba]
      exact hwf.2.1 x b hx
  · intro x b hx
    by_cases hxa : x = a
    · rw [setNode_apply, if_pos hxa] at hx
      cases hx
    · rw [setNode_apply, if_neg hxa] at hx
      have hba : b ≠ a := fun hEq => (honly x hxa).2 (hEq ▸ hx)
      rw [setNode_apply, if_neg hba]
      exact hwf.2.2 x b hx

/-- unlink preserves the global invariant. -/
theorem wf_unlink (h : Heap) (a : Nat) (hwf : wf h) : wf (unlink h a) := by
  by_cases hl : is_linked (h a)
  case neg =>
    rw [unlink_not_linked h a (by simpa using hl)]
    exact hwf
  case pos =>
    obtain ⟨n, p, hn, hp⟩ := nodeOk_linked_fields (h a) (hwf.1 a) hl
    by_cases hna : n = a
    · -- the node is self-looped, so both neighbors are itself
      have hpa : p = a := by
        have hback := hwf.2.1 a a (hna ▸ hn)
        rw [hp] at hback
        simpa using hback
      have hN : unlink h a = setNode h a ⟨none, none⟩ := by
        have hexp : unlink h a =
            setNode (setNext (setPrev h a ((h a).prev_)) a ((h a).next_)) a ⟨none, none⟩ := by
          simp only [unlink, if_pos hl, storePrev, storeNext]
          rw [hn, hna, hp, hpa]
          simp [setPrev, setNext, hn, hna, hp, hpa]
        rw [hexp]
        funext c
        by_cases hca : c = a <;> simp [setNode, setNext, setPrev, hca]
      rw [hN]
      refine wf_clearNode h a hwf ?_
      intro x hxa
      constructor
      · intro hx
        have := hwf.2.1 x a hx
        rw [hp, hpa] at this
        exact hxa (by simpa using this.symm)
      · intro hx
        have := hwf.2.2 x a hx
        rw [hn, hna] at this
        exact hxa (by simpa using this.symm)
    · have hpa : p ≠ a := by
        intro hEq
        rw [hEq] at hp
        have := hwf.2.2 a a hp
        rw [hn] at this
        exact hna (by simpa using this)
      have hnprev : (h n).prev_ = some a := hwf.2.1 a n hn
      have hpnext : (h p).next_ = some a := hwf.2.2 a p hp
      rw [unlink_linked h a n p hn hp hna]
      have hNn : ∀ x, ((setNode (setNext (setPrev h n (some p)) p (some n)) a
          ⟨none, none⟩) x).next_ =
          if x = a then none else if x = p then some n else (h x).next_ := by
        intro x
        by_cases hxa : x = a
        · simp [setNode, hxa]
        · simp [setNode_apply, if_neg hxa, setNext_next, setPrev_next, hxa]
      have hNp : ∀ x, ((setNode (setNext (setPrev h n (some p)) p (some n)) a
          ⟨none, none⟩) x).prev_ =
          if x = a then none else if x = n then some p else (h x).prev_ := by
        intro x
        by_cases hxa : x = a
        · simp [setNode, hxa]
        · simp [setNode_apply, if_neg hxa, setNext_prev, setPrev_prev, hxa]
      have hnok : (h n).next_.isSome = true := by
        have hh := hwf.1 n
        unfold nodeOk at hh
        rw [hnprev] at hh
        simpa using hh
      have hpok : (h p).prev_.isSome = true := by
        have hh := hwf.1 p
        unfold nodeOk at hh
        rw [hpnext] at hh
        simpa using hh.symm
      refine ⟨?_, ?_, ?_⟩
      · intro x
        unfold nodeOk
        rw [hNn x, hNp x]
        by_cases hxa : x = a
        · rw [if_pos hxa, if_pos hxa]
        · rw [if_neg hxa, if_neg hxa]
          by_cases hxp : x = p
          · rw [if_pos hxp]
            by_cases hxn : x = n
            · rw [if_pos hxn]
              rfl
            · rw [if_neg hxn, hxp]
              simp [hpok]
          · rw [if_neg hxp]
            by_cases hxn : x = n
            · rw [if_pos hxn, hxn]
              simp [hnok]
            · rw [if_neg hxn]
              exact hwf.1 x
      · intro x b hx
        rw [hNn x] at hx
        rw [hNp b]
        by_cases hxa : x = a
        · rw [if_pos hxa] at hx
          cases hx
        · rw [if_neg hxa] at hx
          by_cases hxp : x = p
          · rw [if_pos hxp] at hx
            have hbn : b = n := by simpa using hx.symm
            rw [hbn, if_neg hna, if_pos rfl, hxp]
          · rw [if_neg hxp] at hx
            have hold := hwf.2.1 x b hx
            have hba : b ≠ a := by
              intro hEq
              rw [hEq, hp] at hold
              exact hxp (by simpa using hold.symm)
            have hbn : b ≠ n := by
              intro hEq
              rw [hEq, hnprev] at hold
              exact hxa (by simpa using hold.symm)
            rw [if_neg hba, if_neg hbn]
            exact hold
      · intro x b hx
        rw [hNp x] at hx
        rw [hNn b]
        by_cases hxa : x = a
        · rw [if_pos hxa] at hx
          cases hx
        · rw [if_neg hxa] at hx
          by_cases hxn : x = n
          · rw [if_pos hxn] at hx
            have hbp : b = p := by simpa using hx.symm
            rw [hbp, if_neg hpa, if_pos rfl, hxn]
          · rw [if_neg hxn] at hx
            have hold := hwf.2.2 x b hx
            have hba : b ≠ a := by
              intro hEq
              rw [hEq, hn] at hold
              exact hxn (by simpa using hold.symm)
            have hbp : b ≠ p := by
              intro hEq
              rw [hEq, hpnext] at hold
              exact hxa (by simpa using hold.symm)
            rw [if_neg hbp, if_neg hba]
            exact hold

/-- List construction at a fresh (unlinked) sentinel address preserves
the global invariant. -/
theorem wf_init (h : Heap) (s : Nat) (hwf : wf h)
    (hs : is_linked (h s) = false) : wf (intrusive_list_init h s) := by
  obtain ⟨hnoNext, hnoPrev⟩ := wf_no_edge_into_unlinked h s hwf hs
  refine ⟨?_, ?_, ?_⟩
  · intro x
    by_cases hxs : x = s
    · simp [intrusive_list_init, setNode, hxs, nodeOk]
    · simp only [intrusive_list_init, setNode_apply, if_neg hxs]
      exact hwf.1 x
  · intro x b hx
    simp only [intrusive_list_init, setNode_apply] at hx ⊢
    by_cases hxs : x = s
    · rw [if_pos hxs] at hx
      have hbs : b = s := by simpa using hx.symm
      rw [hbs, if_pos rfl]
      rw [hxs]
    · rw [if_neg hxs] at hx
      have hbs : b ≠ s := fun hEq => hnoNext x (hEq ▸ hx)
      rw [if_neg hbs]
      exact hwf.2.1 x b hx
  · intro x b hx
    simp only [intrusive_list_init, setNode_apply] at hx ⊢
    by_cases hxs : x = s
    · rw [if_pos hxs] at hx
      have hbs : b = s := by simpa using hx.symm
      rw [hbs, if_pos rfl]
      rw [hxs]
    · rw [if_neg hxs] at hx
      have hbs : b ≠ s := fun hEq => hnoPrev x (hEq ▸ hx)
      rw [if_neg hbs]
      exact hwf.2.2 x b hx

/-- push_front preserves the global invariant when the sentinel is a
constructed list head and the object is unlinked. -/
theorem wf_push_front (h : Heap) (s a : Nat) (hwf : wf h)
    (hs : is_linked (h s) = true) (ha : is_linked (h a) = false) :
    wf (push_front h s a) := by
  obtain ⟨f, t, hf, ht⟩ := nodeOk_linked_fields (h s) (hwf.1 s) hs
  have hsa : s ≠ a := by
    intro hEq
    rw [hEq, ha] at hs
    cases hs
  rw [push_front_eq_spliceHeap h s a f hf hsa]
  exact wf_spliceHeap h a s f hwf hf (hwf.2.1 s f hf) ha

/-- insert before a linked position preserves the global invariant. -/
theorem wf_insert (h : Heap) (p a : Nat) (hwf : wf h)
    (hp : is_linked (h p) = true) (ha : is_linked (h a) = false) :
    wf (insert h (some p) a) := by
  obtain ⟨n, q, hn, hq⟩ := nodeOk_linked_fields (h p) (hwf.1 p) hp
  have hpa : p ≠ a := by
    intro hEq
    rw [hEq, ha] at hp
    cases hp
  rw [insert_eq_spliceHeap h p a q hq hpa]
  exact wf_spliceHeap h a q p hwf (hwf.2.2 p q hq) hq ha

/-- push_back preserves the global invariant. -/
theorem wf_push_back (h : Heap) (s a : Nat) (hwf : wf h)
    (hs : is_linked (h s) = true) (ha : is_linked (h a) = false) :
    wf (push_back h s a) :=
  wf_insert h s a hwf hs ha

/-- Moving a node preserves the global invariant, provided the
destination is freshly constructed (unlinked) and the source is not a
self-looped sentinel. -/
theorem wf_node_move (h : Heap) (dst src : Nat) (hwf : wf h)
    (hd : is_linked (h dst) = false)
    (hself : (h src).next_ ≠ some src) :
    wf (list_node_move h dst src) := by
  by_cases hls : is_linked (h src)
  · by_cases hdsrc : dst = src
    · rw [hdsrc] at hd
      rw [hd] at hls
      cases hls
    · obtain ⟨n, p, hn, hp⟩ := nodeOk_linked_fields (h src) (hwf.1 src) hls
      have hns : n ≠ src := by
        intro hEq
        rw [hEq] at hn
        exact hself hn
      have hps : p ≠ src := by
        intro hEq
        rw [hEq] at hp
        have := hwf.2.2 src src hp
        exact hself this
      obtain ⟨hnoN, hnoP⟩ := wf_no_edge_into_unlinked h dst hwf hd
      have hdn : dst ≠ n := by
        intro hEq
        have := hwf.2.1 src n hn
        rw [← hEq] at this
        rw [unlinked_node_eq (h dst) hd] at this
        cases this
      have hdp : dst ≠ p := by
        intro hEq
        have := hwf.2.2 src p hp
        rw [← hEq] at this
        rw [unlinked_node_eq (h dst) hd] at this
        cases this
      rw [list_node_move_eq h dst src n p hn hp hns hps hdsrc hdn hdp]
      have hwfu : wf (unlink h src) := wf_unlink h src hwf
      have hUexp := unlink_linked h src n p hn hp hns
      have hUn_prev : ((unlink h src) n).prev_ = some p := by
        rw [hUexp]
        simp [setNode, setNext, setPrev, hns, apply_ite list_node.prev_]
      have hUp_next : ((unlink h src) p).next_ = some n := by
        rw [hUexp]
        simp [setNode, setNext, setPrev, hps, apply_ite list_node.next_]
      have hUdst : is_linked ((unlink h src) dst) = false := by
        rw [hUexp]
        have hnode : (setNode (setNext (setPrev h n (some p)) p (some n)) src
            ⟨none, none⟩) dst = h dst := by
          simp [setNode, setNext, setPrev, hdsrc, hdp, hdn]
        rw [hnode]
        exact hd
      rw [insert_eq_spliceHeap (unlink h src) n dst p hUn_prev (Ne.symm hdn)]
      exact wf_spliceHeap (unlink h src) dst p n hwfu hUp_next hUn_prev hUdst
  · have hls' : is_linked (h src) = false := by simpa using hls
    by_cases hdsrc : dst = src
    · rw [hdsrc]
      have hN : list_node_move h src src = setNode h src ⟨none, none⟩ := by
        simp [list_node_move, setNode_setNode, setNode, is_linked]
      rw [hN]
      refine wf_clearNode h src hwf ?_
      intro x hx
      exact ⟨(wf_no_edge_into_unlinked h src hwf hls').1 x,
        (wf_no_edge_into_unlinked h src hwf hls').2 x⟩
    · have hsd : src ≠ dst := fun hEq => hdsrc hEq.symm
      have hN : list_node_move h dst src = setNode h dst ⟨none, none⟩ := by
        have hg : is_linked ((setNode h dst ⟨none, none⟩) src) = false := by
          rw [setNode_ne h dst ⟨none, none⟩ src hsd]
          exact hls'
        simp only [list_node_move, hg]
        simp
      rw [hN]
      refine wf_clearNode h dst hwf ?_
      intro x hx
      exact ⟨(wf_no_edge_into_unlinked h dst hwf hd).1 x,
        (wf_no_edge_into_unlinked h dst hwf hd).2 x⟩

/-- Move assignment of a node preserves the global invariant: either a
self-assignment no-op, or unlink followed by the move transfer. -/
theorem wf_node_move_assign (h : Heap) (dst src : Nat) (hwf : wf h)
    (hself : (h src).next_ ≠ some src)
    (hadj : ¬((h dst).next_ = some src ∧ (h dst).prev_ = some src)) :
    wf (list_node_move_assign h dst src) := by
  by_cases hds : dst = src
  · rw [hds, list_node_move_assign_self]
    exact hwf
  · rw [list_node_move_assign_eq h dst src hds]
    refine wf_node_move (unlink h dst) dst src (wf_unlink h dst hwf)
      (unlink_self_unlinked h dst) ?_
    by_cases hl : is_linked (h dst)
    · obtain ⟨n, p, hn, hp⟩ := nodeOk_linked_fields (h dst) (hwf.1 dst) hl
      by_cases hna : n = dst
      · have hpa : p = dst := by
          have hback := hwf.2.1 dst dst (hna ▸ hn)
          rw [hp] at hback
          simpa using hback
        have hN : unlink h dst = setNode h dst ⟨none, none⟩ := by
          have hexp : unlink h dst =
              setNode (setNext (setPrev h dst ((h dst).prev_)) dst ((h dst).next_))
                dst ⟨none, none⟩ := by
            simp only [unlink, if_pos hl, storePrev, storeNext]
            rw [hn, hna, hp, hpa]
            simp [setPrev, setNext, hn, hna, hp, hpa]
          rw [hexp]
          funext c
          by_cases hca : c = dst <;> simp [setNode, setNext, setPrev, hca]
        rw [hN]
        rw [setNode_ne h dst ⟨none, none⟩ src (Ne.symm hds)]
        exact hself
      · rw [unlink_linked h dst n p hn hp hna]
        have hnode : (setNode (setNext (setPrev h n (some p)) p (some n)) dst
            ⟨none, none⟩) src = (setNext (setPrev h n (some p)) p (some n)) src := by
          simp [setNode, Ne.symm hds]
        rw [hnode, setNext_next, setPrev_next]
        by_cases hsp : src = p
        · rw [if_pos hsp]
          intro hEq
          have hnsrc : n = src := by simpa using hEq
          exact hadj ⟨by rw [hn, hnsrc], by rw [hp, ← hsp]⟩
        · rw [if_neg hsp]
          exact hself
    · rw [unlink_not_linked h dst (by simpa using hl)]
      exact hself

/-- pop_front, pop_back, the two erase forms and clear all factor
through unlink, so they preserve the global invariant. -/
theorem wf_pop_front (h : Heap) (s : Nat) (hwf : wf h) : wf (pop_front h s) := by
  unfold pop_front
  cases (h s).next_ with
  | none => exact hwf
  | some x => exact wf_unlink h x hwf

theorem wf_pop_back (h : Heap) (s : Nat) (hwf : wf h) : wf (pop_back h s) := by
  unfold pop_back
  cases (h s).prev_ with
  | none => exact hwf
  | some x => exact wf_unlink h x hwf

theorem wf_erase_at (h : Heap) (pos : Option Nat) (hwf : wf h) :
    wf (erase_at h pos) := by
  unfold erase_at
  cases pos with
  | none => exact hwf
  | some p => exact wf_unlink h p hwf

theorem wf_erase_obj (h : Heap) (a : Nat) (hwf : wf h) : wf (erase_obj h a) :=
  wf_unlink h a hwf

theorem wf_clear (s : Nat) : ∀ (fuel : Nat) (h : Heap), wf h → wf (clear s fuel h)
  | 0, h, hwf => hwf
  | fuel + 1, h, hwf => by
    unfold clear
    by_cases he : empty h s
    · simpa [he] using hwf
    · have he' : empty h s = false := by simpa using he
      simpa [he'] using wf_clear s fuel (pop_front h s) (wf_pop_front h s hwf)

/-! ### Chain adjacency is symmetric -/

/-- Along a path, any forward edge out of a member is answered by the
matching back edge. -/
theorem pathOk_next_det (h : Heap) (z : Nat) :
    ∀ (ms : List Nat) (a : Nat), pathOk h a ms z →
      ∀ c ∈ ms, ∀ b, (h c).next_ = some b → (h b).prev_ = some c
  | [], _, _, c, hc, _, _ => absurd hc (List.not_mem_nil c)
  | y :: ms', a, hp, c, hc, b, hb => by
    rcases List.mem_cons.mp hc with hc | hc
    · subst hc
      cases ms' with
      | nil =>
        have h1 : (h c).next_ = some z := hp.2.1
        rw [h1] at hb
        have : z = b := by simpa using hb
        rw [← this]
        exact hp.2.2
      | cons c₂ ms'' =>
        have h1 : (h c).next_ = some c₂ := hp.2.1.1
        rw [h1] at hb
        have : c₂ = b := by simpa using hb
        rw [← this]
        exact hp.2.1.2
    · exact pathOk_next_det h z ms' y hp.2 c hc b hb

/-- Chain adjacency: for any ring position a with a.next_ = b, always
b.prev_ = a. -/
theorem rep_adjacent (h : Heap) (s : Nat) (xs : List Nat) (hr : rep h s xs)
    (a b : Nat) (ha : a ∈ s :: xs) (hb : (h a).next_ = some b) :
    (h b).prev_ = some a := by
  rcases List.mem_cons.mp ha with ha | ha
  · subst ha
    cases xs with
    | nil =>
      have h1 : (h a).next_ = some a := hr.1.1
      rw [h1] at hb
      have : a = b := by simpa using hb
      rw [← this]
      exact hr.1.2
    | cons x xs' =>
      have h1 : (h a).next_ = some x := hr.1.1.1
      rw [h1] at hb
      have : x = b := by simpa using hb
      rw [← this]
      exact hr.1.1.2
  · exact pathOk_next_det h s xs s hr.1 a ha b hb

/-! ### The claims -/

/-- C1: for every sequence of push_front, push_back, insert and erase
operations on a list, each respecting its precondition, iterating from
begin() to end() yields exactly the objects currently linked into the
list, in their relative insertion order: push_back appends at the tail,
push_front prepends at the head, insert places the object immediately
before the given position and erase removes only the erased object
(absApplys records these abstract transformations). -/
theorem spec_C1 (s : Nat) (ops : List Op) (h : Heap) (xs : List Nat)
    (hr : rep h s xs) (hok : opsOk s ops h xs) :
    rep (applyOps s ops h) s (absApplys s ops xs) ∧
    toList (applyOps s ops h) s ((absApplys s ops xs).length + 1) =
      absApplys s ops xs := by
  have h1 := rep_applyOps s ops h xs hr hok
  exact ⟨h1, rep_toList _ s _ h1⟩

/-- Witness for C1 on a concrete run: push_back 1, push_back 2,
push_front 3, insert 4 before 2, erase 1 leaves the members 3, 4, 2 and
iteration yields exactly them in order. -/
theorem spec_C1_witness :
    rep (applyOps 0 wops wlist) 0 [3, 4, 2] ∧
    toList (applyOps 0 wops wlist) 0 4 = [3, 4, 2] := by
  have h := spec_C1 0 wops wlist [] (by decide) (by decide)
  rw [show absApplys 0 wops [] = [3, 4, 2] from by decide] at h
  exact h

/-- C4: swap exchanges the entire membership of two distinct lists for
every combination of emptiness (the statement quantifies over arbitrary
member lists xs and ys, covering 0/0, 0/n, m/0 and m/n): afterwards the
first list holds exactly the former members of the second in their former
order and conversely, with the surviving chains reseated onto the
receiving sentinels; self-swap is a no-op.  The swap definition is a
fixed bounded sequence of pointer writes with no iteration, the shallow
reading of O(1). -/
theorem spec_C4 (h : Heap) (sa sb : Nat) (xs ys : List Nat)
    (hra : rep h sa xs) (hrb : rep h sb ys) (hab : sa ≠ sb)
    (hdisj : ∀ c ∈ sa :: xs, c ∉ sb :: ys) :
    (rep (swap h sa sb) sa ys ∧ rep (swap h sa sb) sb xs) ∧
    (∀ (h2 : Heap) (s : Nat), swap h2 s s = h2) := by
  refine ⟨rep_swap h sa sb xs ys hra hrb hab hdisj, ?_⟩
  intro h2 s
  simp [swap]

/-- Witness for C4: swapping the non-empty list at 0 with the singleton
list at 10 exchanges their memberships, and a self-swap leaves the heap
unchanged. -/
theorem spec_C4_witness :
    (rep (swap wpair 0 10) 0 [11] ∧ rep (swap wpair 0 10) 10 [1, 2, 3]) ∧
    swap wpair 5 5 = wpair := by
  have h := spec_C4 wpair 0 10 [1, 2, 3] [11] (by decide) (by decide)
    (by decide) (by decide)
  exact ⟨h.1, h.2 wpair 5⟩

/-- C7: unlink is O(1) (a fixed bounded sequence of writes) and
idempotent: on an already-unlinked node it changes nothing, repeated
calls change nothing, and on any linked node it patches exactly its two
neighbors (the prev neighbor next_ field becomes next, the next neighbor
prev_ field becomes prev) and clears both of its own references, leaving
it unlinked.  The patch description is field-wise and carries no
distinctness assumptions, so it also covers the sole member of a
singleton list, whose two neighbors are the same sentinel and which
therefore receives both field patches, and a self-looped node: every
address other than the unlinked node keeps its next_ field unless it is
the prev neighbor, and keeps its prev_ field unless it is the next
neighbor. -/
theorem spec_C7 :
    (∀ (h : Heap) (a : Nat), is_linked (h a) = false → unlink h a = h) ∧
    (∀ (h : Heap) (a : Nat), unlink (unlink h a) a = unlink h a) ∧
    (∀ (h : Heap) (a n p : Nat), (h a).next_ = some n → (h a).prev_ = some p →
      (unlink h a) a = ⟨none, none⟩ ∧
      (∀ c, c ≠ a →
        ((unlink h a) c).next_ = (if c = p then some n else (h c).next_) ∧
        ((unlink h a) c).prev_ = (if c = n then some p else (h c).prev_))) := by
  refine ⟨unlink_not_linked, unlink_unlink, ?_⟩
  intro h a n p hn hp
  rw [unlink_linked_all h a n p hn hp]
  refine ⟨by simp, ?_⟩
  intro c hc
  constructor
  · simp only [setNode_apply, if_neg hc, setNext_next, setPrev_next]
  · simp only [setNode_apply, if_neg hc, setNext_prev, setPrev_prev]

/-- Witness for C7: unlinking the middle member 2 of the list 1, 2, 3
clears node 2 and bridges 1 and 3; unlinking the untouched address 7
changes nothing; unlink is idempotent at 2; and unlinking the sole
member of the singleton list at 0, whose two neighbors are both the
sentinel 0, clears the member and gives the sentinel both field patches,
restoring its self-loop. -/
theorem spec_C7_witness :
    unlink wthree 7 = wthree ∧
    unlink (unlink wthree 2) 2 = unlink wthree 2 ∧
    (unlink wthree 2) 2 = ⟨none, none⟩ ∧
    ((unlink wthree 2) 1).next_ = some 3 ∧
    ((unlink wthree 2) 3).prev_ = some 1 ∧
    ((unlink wthree 2) 5).next_ = (wthree 5).next_ ∧
    (unlink (push_back wlist 0 1) 1) 1 = ⟨none, none⟩ ∧
    ((unlink (push_back wlist 0 1) 1) 0).next_ = some 0 ∧
    ((unlink (push_back wlist 0 1) 1) 0).prev_ = some 0 := by
  have h3 := spec_C7.2.2 wthree 2 3 1 (by decide) (by decide)
  have h1 := spec_C7.2.2 (push_back wlist 0 1) 1 0 0 (by decide) (by decide)
  refine ⟨spec_C7.1 wthree 7 (by decide), spec_C7.2.1 wthree 2, h3.1,
    ?_, ?_, ?_, h1.1, ?_, ?_⟩
  · have hf := (h3.2 1 (by decide)).1
    simpa using hf
  · have hf := (h3.2 3 (by decide)).2
    simpa using hf
  · have hf := (h3.2 5 (by decide)).1
    simpa using hf
  · have hf := (h1.2 0 (by decide)).1
    simpa using hf
  · have hf := (h1.2 0 (by decide)).2
    simpa using hf

/-- C8: push_back of an unlinked object followed by erase of that object
restores the heap exactly, so can_insert is true again, the push
precondition holds again, and the object can be reinserted into the same
list or into any disjoint second list. -/
theorem spec_C8 (h : Heap) (s a : Nat) (xs : List Nat)
    (hr : rep h s xs) (ha : is_linked (h a) = false) :
    erase_obj (push_back h s a) a = h ∧
    can_insert (erase_obj (push_back h s a) a) a = true ∧
    rep (push_back (erase_obj (push_back h s a) a) s a) s (xs ++ [a]) ∧
    (∀ s2 ys, rep h s2 ys → rep (erase_obj (push_back h s a) a) s2 ys) := by
  have hid := push_back_erase_obj_id h s a xs hr ha
  obtain ⟨has, hax⟩ := rep_unlinked_fresh h s xs a hr ha
  refine ⟨hid, ?_, ?_, ?_⟩
  · rw [hid]
    simp [can_insert, ha]
  · rw [hid]
    exact rep_push_back h s a xs hr has hax
  · intro s2 ys hr2
    rw [hid]
    exact hr2

/-- Witness for C8: pushing 5 onto the list 1, 2, 3 and erasing it again
restores the heap, makes can_insert true and allows the reinsertion. -/
theorem spec_C8_witness :
    erase_obj (push_back wthree 0 5) 5 = wthree ∧
    can_insert (erase_obj (push_back wthree 0 5) 5) 5 = true ∧
    rep (push_back (erase_obj (push_back wthree 0 5) 5) 0 5) 0 [1, 2, 3, 5] := by
  have h := spec_C8 wthree 0 5 [1, 2, 3] (by decide) (by decide)
  exact ⟨h.1, h.2.1, h.2.2.1⟩

/-- C9: erase(T&) on an object whose link is not in any list is a silent
no-op: the source contains no assertion in this overload (the model
therefore attaches no assert predicate to it), the heap is unchanged
exactly, the link stays unlinked, and every list keeps its membership and
iteration order. -/
theorem spec_C9 (h : Heap) (a : Nat) (ha : is_linked (h a) = false) :
    erase_obj h a = h ∧
    is_linked ((erase_obj h a) a) = false ∧
    (∀ s xs, rep h s xs → rep (erase_obj h a) s xs ∧
      toList (erase_obj h a) s (xs.length + 1) = xs) := by
  have hid : erase_obj h a = h := unlink_not_linked h a ha
  refine ⟨hid, by rw [hid]; exact ha, ?_⟩
  intro s xs hr
  rw [hid]
  exact ⟨hr, rep_toList h s xs hr⟩

/-- Witness for C9: erasing the never-inserted object 9 leaves the heap
holding 1, 2, 3 untouched. -/
theorem spec_C9_witness :
    erase_obj wthree 9 = wthree ∧
    is_linked ((erase_obj wthree 9) 9) = false ∧
    rep (erase_obj wthree 9) 0 [1, 2, 3] := by
  have h := spec_C9 wthree 9 (by decide)
  exact ⟨h.1, h.2.1, (h.2.2 0 [1, 2, 3] (by decide)).1⟩

/-- C10: list iterators wrap circularly through the sentinel: for every
list, including the empty one, incrementing end() yields begin(),
decrementing begin() yields end(), and incrementing or decrementing an
iterator at any position of the circle never produces a null
iterator. -/
theorem spec_C10 (h : Heap) (s : Nat) (xs : List Nat) (hr : rep h s xs) :
    iterInc h (end_ s) = begin h s ∧
    iterDec h (begin h s) = end_ s ∧
    (∀ c ∈ s :: xs, iterInc h (some c) ≠ none ∧ iterDec h (some c) ≠ none) :=
  ⟨iterInc_end h s, iterDec_begin h s xs hr, iter_no_null h s xs hr⟩

/-- Witness for C10 on the list 1, 2, 3 and on the empty list. -/
theorem spec_C10_witness :
    iterInc wthree (end_ 0) = begin wthree 0 ∧
    iterDec wthree (begin wthree 0) = end_ 0 ∧
    iterInc wthree (some 2) ≠ none ∧
    iterDec wlist (begin wlist 0) = end_ 0 := by
  have h1 := spec_C10 wthree 0 [1, 2, 3] (by decide)
  have h2 := spec_C10 wlist 0 [] (by decide)
  exact ⟨h1.1, h1.2.1, (h1.2.2 2 (by decide)).1, h2.2.1⟩

/-- C3 counterexample: the claim states that dereferencing an iterator
equal to end() fails an assertion, and that erasing at a
default-constructed iterator is checked.  Neither holds in the source:
the dereference assertion only checks current_ != nullptr, which the end
iterator (the non-null sentinel address) passes, and the erase assertion
only checks pos != end(), which a null iterator passes.  Concretely, for
the list with sentinel address 0, both assertion conditions evaluate to
true (the asserts pass) at exactly the points the claim says they
fail. -/
theorem spec_C3_counterexample :
    deref_assert (end_ 0) = true ∧ erase_assert none 0 = true := by
  decide

/-- C3 (amended): each precondition violation that the source actually
checks halts in debug builds, namely: inserting an already-linked object
(push_front, push_back, insert assert the node is not linked), calling
front, back, pop_front or pop_back on an empty list (assert not empty),
and dereferencing or advancing a default-constructed (null) iterator
(assert current_ != nullptr).  Dereferencing end() is NOT checked, since
the sentinel address is non-null, and erase(pos) checks pos != end() but
does not check for a null iterator. -/
theorem spec_C3_amended :
    (∀ (h : Heap) (a : Nat), is_linked (h a) = true → push_assert h a = false) ∧
    (∀ (h : Heap) (s : Nat), empty h s = true → access_assert h s = false) ∧
    deref_assert none = false ∧
    (∀ s : Nat, deref_assert (end_ s) = true) ∧
    (∀ s : Nat, erase_assert (end_ s) s = false) ∧
    (∀ s : Nat, erase_assert none s = true) := by
  refine ⟨?_, ?_, rfl, fun s => rfl, ?_, ?_⟩
  · intro h a ha
    simp [push_assert, ha]
  · intro h s hs
    simp [access_assert, hs]
  · intro s
    simp [erase_assert]
  · intro s
    simp [erase_assert, end_]

/-- Witness for the amended C3: on the concrete heap with 1, 2, 3
linked, pushing the linked object 2 fails its assertion, accessing the
empty list at 10 fails its assertion, and a null iterator fails the
dereference assertion. -/
theorem spec_C3_amended_witness :
    push_assert wthree 2 = false ∧
    access_assert (intrusive_list_init wbase 10) 10 = false ∧
    deref_assert none = false := by
  refine ⟨spec_C3_amended.1 wthree 2 (by decide),
    spec_C3_amended.2.1 (intrusive_list_init wbase 10) 10 (by decide),
    spec_C3_amended.2.2.1⟩

/-- C5: moving a list_node transfers the chain position of the source to
the destination: when the source is a chain member and the destination is
freshly constructed (unlinked), the chain afterwards runs through the
destination in place of the source (hence both former neighbors point at
the destination) and the source ends cleared; when the source is
unlinked, the destination ends unlinked; move assignment on distinct
nodes first vacates the destination via unlink and then performs exactly
the move transfer; self move assignment is a no-op. -/
theorem spec_C5 :
    (∀ (h : Heap) (s dst src : Nat) (l r : List Nat),
      rep h s (l ++ src :: r) → is_linked (h dst) = false →
      rep (list_node_move h dst src) s (l ++ dst :: r) ∧
      (list_node_move h dst src) src = ⟨none, none⟩) ∧
    (∀ (h : Heap) (dst src : Nat), is_linked (h src) = false →
      (list_node_move h dst src) dst = ⟨none, none⟩) ∧
    (∀ (h : Heap) (dst src : Nat), dst ≠ src →
      list_node_move_assign h dst src = list_node_move (unlink h dst) dst src) ∧
    (∀ (h : Heap) (a : Nat), list_node_move_assign h a a = h) :=
  ⟨fun h s dst src l r hr hd => rep_node_move h s dst src l r hr hd,
   list_node_move_unlinked_src,
   list_node_move_assign_eq,
   list_node_move_assign_self⟩

/-- Witness for C5: moving member 2 of the list 1, 2, 3 into the fresh
node 9 yields the chain 1, 9, 3 with node 2 cleared; moving the unlinked
node 8 leaves 7 unlinked; a self move assignment changes nothing. -/
theorem spec_C5_witness :
    rep (list_node_move wthree 9 2) 0 [1, 9, 3] ∧
    (list_node_move wthree 9 2) 2 = ⟨none, none⟩ ∧
    (list_node_move wthree 7 8) 7 = ⟨none, none⟩ ∧
    list_node_move_assign wthree 4 4 = wthree := by
  have h1 := spec_C5.1 wthree 0 9 2 [1] [3] (by decide) (by decide)
  exact ⟨h1.1, h1.2, spec_C5.2.1 wthree 7 8 (by decide),
    spec_C5.2.2.2 wthree 4⟩

/-- C2: the chain invariant rep (a circular doubly-linked ring of
pairwise-distinct addresses through the sentinel) holds after every
container operation.  The first conjunct spells out the invariant
content: when the list is empty the sentinel points at itself in both
directions, when non-empty sentinel.next_ is the first member and
sentinel.prev_ the last, and any two chain-adjacent nodes a, b with
a.next_ = b satisfy b.prev_ = a.  The remaining conjuncts show that
construction establishes the invariant and that push_front, push_back,
insert (before a member or before end()), erase (by iterator and by
object), pop_front, pop_back, clear, swap, move construction and move
assignment each preserve it with the expected member list. -/
theorem spec_C2 :
    (∀ (h : Heap) (s : Nat) (xs : List Nat), rep h s xs →
      ((xs = [] → (h s).next_ = some s ∧ (h s).prev_ = some s) ∧
       (∀ x xs', xs = x :: xs' → (h s).next_ = some x) ∧
       (∀ init l, xs = init ++ [l] → (h s).prev_ = some l) ∧
       (∀ a b, a ∈ s :: xs → (h a).next_ = some b → (h b).prev_ = some a))) ∧
    (∀ (h : Heap) (s : Nat), rep (intrusive_list_init h s) s []) ∧
    (∀ (h : Heap) (s a : Nat) (xs : List Nat), rep h s xs →
      is_linked (h a) = false → rep (push_front h s a) s (a :: xs)) ∧
    (∀ (h : Heap) (s a : Nat) (xs : List Nat), rep h s xs →
      is_linked (h a) = false → rep (push_back h s a) s (xs ++ [a])) ∧
    (∀ (h : Heap) (s p a : Nat) (xs : List Nat), rep h s xs → p ∈ xs →
      is_linked (h a) = false → rep (insert h (some p) a) s (absInsert xs p a)) ∧
    (∀ (h : Heap) (s a : Nat) (xs : List Nat), rep h s xs →
      is_linked (h a) = false → rep (insert h (end_ s) a) s (xs ++ [a])) ∧
    (∀ (h : Heap) (s p : Nat) (xs : List Nat), rep h s xs → p ∈ xs →
      rep (erase_at h (some p)) s (xs.erase p)) ∧
    (∀ (h : Heap) (s a : Nat) (xs : List Nat), rep h s xs → a ∈ xs →
      rep (erase_obj h a) s (xs.erase a)) ∧
    (∀ (h : Heap) (s x : Nat) (rest : List Nat), rep h s (x :: rest) →
      rep (pop_front h s) s rest) ∧
    (∀ (h : Heap) (s l : Nat) (init : List Nat), rep h s (init ++ [l]) →
      rep (pop_back h s) s init) ∧
    (∀ (h : Heap) (s : Nat) (xs : List Nat) (fuel : Nat), rep h s xs →
      xs.length ≤ fuel → rep (clear s fuel h) s []) ∧
    (∀ (h : Heap) (sa sb : Nat) (xs ys : List Nat), rep h sa xs → rep h sb ys →
      sa ≠ sb → (∀ c ∈ sa :: xs, c ∉ sb :: ys) →
      rep (swap h sa sb) sa ys ∧ rep (swap h sa sb) sb xs) ∧
    (∀ (h : Heap) (dst src : Nat) (xs : List Nat), rep h src xs →
      dst ≠ src → dst ∉ xs →
      rep (intrusive_list_move h dst src) dst xs ∧
      rep (intrusive_list_move h dst src) src []) ∧
    (∀ (h : Heap) (dst src : Nat) (xs ys : List Nat) (fuel : Nat),
      ys.length ≤ fuel → rep h dst ys → rep h src xs → dst ≠ src →
      (∀ c ∈ dst :: ys, c ∉ src :: xs) →
      rep (intrusive_list_move_assign h dst src fuel) dst xs ∧
      rep (intrusive_list_move_assign h dst src fuel) src []) := by
  refine ⟨?_, ?_, ?_, ?_, ?_, ?_, ?_, ?_, ?_, ?_, ?_, ?_, ?_, ?_⟩
  · intro h s xs hr
    refine ⟨?_, ?_, ?_, ?_⟩
    · intro hxs
      subst hxs
      exact ⟨hr.1.1, hr.1.2⟩
    · intro x xs' hxs
      subst hxs
      exact hr.1.1.1
    · intro init l hxs
      subst hxs
      exact rep_sentinel_prev_last h s l init hr
    · intro a b ha hb
      exact rep_adjacent h s xs hr a b ha hb
  · exact rep_init
  · intro h s a xs hr ha
    obtain ⟨has, hax⟩ := rep_unlinked_fresh h s xs a hr ha
    exact rep_push_front h s a xs hr has hax
  · intro h s a xs hr ha
    obtain ⟨has, hax⟩ := rep_unlinked_fresh h s xs a hr ha
    exact rep_push_back h s a xs hr has hax
  · intro h s p a xs hr hp ha
    exact rep_insert_mem h s p a xs hr hp ha
  · intro h s a xs hr ha
    obtain ⟨has, hax⟩ := rep_unlinked_fresh h s xs a hr ha
    rw [insert_end_eq_push_back]
    exact rep_push_back h s a xs hr has hax
  · intro h s p xs hr hp
    exact rep_erase_mem h s p xs hr hp
  · intro h s a xs hr ha
    exact rep_erase_mem h s a xs hr ha
  · intro h s x rest hr
    exact rep_pop_front h s x rest hr
  · intro h s l init hr
    exact rep_pop_back h s l init hr
  · intro h s xs fuel hr hlen
    exact rep_clear s fuel h xs hr hlen
  · intro h sa sb xs ys hra hrb hab hdisj
    exact rep_swap h sa sb xs ys hra hrb hab hdisj
  · intro h dst src xs hr hds hdx
    exact rep_list_move h dst src xs hr hds hdx
  · intro h dst src xs ys fuel hfuel hrd hrs hds hdisj
    exact rep_list_move_assign h dst src xs ys fuel hfuel hrd hrs hds hdisj

/-- Witness for C2 on concrete heaps: the invariant content on the list
1, 2, 3, invariant establishment by construction, and preservation under
a push, a pop and a clear. -/
theorem spec_C2_witness :
    (wthree 0).next_ = some 1 ∧ (wthree 0).prev_ = some 3 ∧
    rep (intrusive_list_init wbase 4) 4 [] ∧
    rep (push_front wthree 0 6) 0 [6, 1, 2, 3] ∧
    rep (pop_front wthree 0) 0 [2, 3] ∧
    rep (clear 0 3 wthree) 0 [] := by
  obtain ⟨c1, c2, c3, _, _, _, _, _, c9, _, c11, _, _, _⟩ := spec_C2
  have hthree : rep wthree 0 [1, 2, 3] := by decide
  refine ⟨(c1 wthree 0 [1, 2, 3] hthree).2.1 1 [2, 3] rfl,
    (c1 wthree 0 [1, 2, 3] hthree).2.2.1 [1, 2] 3 rfl,
    c2 wbase 4, c3 wthree 0 6 [1, 2, 3] hthree (by decide),
    c9 wthree 0 1 [2, 3] hthree,
    c11 wthree 0 [1, 2, 3] 3 hthree (by decide)⟩

/-- C6: every list_node starts unlinked with both references null, and
at every point outside the body of an operation its next_ and prev_
references are both null or both non-null, never mixed; consequently
is_linked can be decided from either reference alone.  The invariant
proved preserved is wf: nodeOk at every address (the claim content)
strengthened with pointer coherence, which every reachable state enjoys
and which each mutating operation preserves: list construction at a
fresh sentinel, the splices push_front, push_back and insert, unlink and
the operations that factor through it (erase by iterator, erase by
object, pop_front, pop_back, clear, destruction), and the node moves
(for a move, the destination must be freshly constructed and the source
an element node, not a self-looped sentinel). -/
theorem spec_C6 :
    nodeOk ⟨none, none⟩ ∧
    (∀ nd, nodeOk nd →
      is_linked nd = nd.next_.isSome ∧ is_linked nd = nd.prev_.isSome) ∧
    (∀ h, wf h → heapOk h) ∧
    (∀ (h : Heap) (s : Nat), wf h → is_linked (h s) = false →
      wf (intrusive_list_init h s)) ∧
    (∀ (h : Heap) (s a : Nat), wf h → is_linked (h s) = true →
      is_linked (h a) = false → wf (push_front h s a)) ∧
    (∀ (h : Heap) (s a : Nat), wf h → is_linked (h s) = true →
      is_linked (h a) = false → wf (push_back h s a)) ∧
    (∀ (h : Heap) (p a : Nat), wf h → is_linked (h p) = true →
      is_linked (h a) = false → wf (insert h (some p) a)) ∧
    (∀ (h : Heap) (a : Nat), wf h → wf (unlink h a)) ∧
    (∀ (h : Heap) (pos : Option Nat), wf h → wf (erase_at h pos)) ∧
    (∀ (h : Heap) (a : Nat), wf h → wf (erase_obj h a)) ∧
    (∀ (h : Heap) (s : Nat), wf h → wf (pop_front h s)) ∧
    (∀ (h : Heap) (s : Nat), wf h → wf (pop_back h s)) ∧
    (∀ (s fuel : Nat) (h : Heap), wf h → wf (clear s fuel h)) ∧
    (∀ (h : Heap) (dst src : Nat), wf h → is_linked (h dst) = false →
      (h src).next_ ≠ some src → wf (list_node_move h dst src)) ∧
    (∀ (h : Heap) (dst src : Nat), wf h → (h src).next_ ≠ some src →
      ¬((h dst).next_ = some src ∧ (h dst).prev_ = some src) →
      wf (list_node_move_assign h dst src)) := by
  refine ⟨rfl, nodeOk_is_linked, fun h hwf => hwf.1, ?_, ?_, ?_, ?_, ?_,
    ?_, ?_, ?_, ?_, ?_, ?_, ?_⟩
  · intro h s hwf hs
    exact wf_init h s hwf hs
  · intro h s a hwf hs ha
    exact wf_push_front h s a hwf hs ha
  · intro h s a hwf hs ha
    exact wf_push_back h s a hwf hs ha
  · intro h p a hwf hp ha
    exact wf_insert h p a hwf hp ha
  · intro h a hwf
    exact wf_unlink h a hwf
  · intro h pos hwf
    exact wf_erase_at h pos hwf
  · intro h a hwf
    exact wf_erase_obj h a hwf
  · intro h s hwf
    exact wf_pop_front h s hwf
  · intro h s hwf
    exact wf_pop_back h s hwf
  · intro s fuel h hwf
    exact wf_clear s fuel h hwf
  · intro h dst src hwf hd hself
    exact wf_node_move h dst src hwf hd hself
  · intro h dst src hwf hself hadj
    exact wf_node_move_assign h dst src hwf hself hadj

/-- Witness for C6: the base heap satisfies the invariant and it is
preserved along a concrete construction, push and unlink. -/
theorem spec_C6_witness :
    wf (unlink (push_back (intrusive_list_init wbase 0) 0 1) 1) := by
  have hwfbase : wf wbase := by
    refine ⟨fun a => rfl, ?_, ?_⟩
    · intro a b hx
      exact absurd hx (by simp [wbase])
    · intro a b hx
      exact absurd hx (by simp [wbase])
  have h1 := spec_C6.2.2.2.1 wbase 0 hwfbase (by decide)
  have h2 := spec_C6.2.2.2.2.2.1 (intrusive_list_init wbase 0) 0 1 h1
    (by decide) (by decide)
  exact spec_C6.2.2.2.2.2.2.2.1 _ 1 h2

end dod
